import Mathlib

/-!
Verification of the stockCheck ingestion pipeline, indicator engine,
persistence layer and prediction-accuracy comparator.

The Python sources are shallowly embedded: pure functions become Lean
functions over `ℚ` (idealising IEEE-754 doubles), SQLite tables become
lists of row structures with `INSERT OR REPLACE` modelled as a keyed
remove-and-append upsert, and fallible adapter calls become `Except`
values consumed by `safeCall` (the embedding of `utils.safe_call`).
-/

namespace StockCheck

/-- Embedding of `pipeline/models.py` `PriceRow`. -/
structure PriceRow where
  date : String
  «open» : ℚ
  high : ℚ
  low : ℚ
  close : ℚ
  volume : ℚ
  source : String
deriving DecidableEq

/-- Calendar date as parsed by `datetime.strptime(item.date, "%Y-%m-%d")`. -/
structure DateYMD where
  year : ℕ
  month : ℕ
  day : ℕ
deriving DecidableEq

/-- Numeric key giving the calendar order on dates (month ≤ 12, day ≤ 31,
so this is the lexicographic order on (year, month, day)). -/
def dateKey (d : DateYMD) : ℕ :=
  d.year * 10000 + d.month * 100 + d.day

/-- Number of days in a month, with the Gregorian leap-year rule, as
validated by `datetime.strptime`. -/
def daysInMonth (y m : ℕ) : ℕ :=
  if m = 2 then
    (if (y % 4 = 0 ∧ y % 100 ≠ 0) ∨ y % 400 = 0 then 29 else 28)
  else if m = 4 ∨ m = 6 ∨ m = 9 ∨ m = 11 then 30
  else 31

/-- Lexicographic code-point order on character lists. -/
def charListLt : List Char → List Char → Bool
  | _, [] => false
  | [], _ :: _ => true
  | a :: as, b :: bs =>
    if a.toNat < b.toNat then true
    else if a.toNat = b.toNat then charListLt as bs
    else false

/-- Code-point order on strings: the order Python uses to compare `str`
values and SQLite uses for `TEXT` under the BINARY collation (memcmp on
UTF-8 agrees with code-point order). -/
def strLt (a b : String) : Bool := charListLt a.toList b.toList

/-- Non-strict code-point order on strings (`a ≤ b ↔ ¬ b < a` in a linear
order). -/
def strLe (a b : String) : Bool := !(strLt b a)

/-- Whether a list of date strings is strictly ascending (no duplicates):
the spec's "strictly ascending by date with no duplicate dates". -/
def chainStrLt : List String → Bool
  | [] => true
  | [_] => true
  | a :: b :: rest => strLt a b && chainStrLt (b :: rest)

/-- Splitting a character list on a separator, as Python `str.split(sep)`
(and Lean `String.splitOn`) does. -/
def splitOnChar (sep : Char) : List Char → List (List Char)
  | [] => [[]]
  | c :: cs =>
    let rest := splitOnChar sep cs
    if c = sep then [] :: rest
    else
      match rest with
      | [] => [[c]]
      | g :: gs => (c :: g) :: gs

/-- A non-empty all-digit field read as a decimal number, as `strptime`
matches `%Y`/`%m`/`%d` fields. -/
def digitField (cs : List Char) : Option ℕ :=
  if cs.isEmpty then none
  else if cs.all Char.isDigit then some (cs.foldl (fun n c => n * 10 + (c.toNat - 48)) 0)
  else none

/-- Embedding of `datetime.strptime(s, "%Y-%m-%d").date()`: three
dash-separated decimal fields with a valid month and day, `none` when the
source would raise `ValueError`. -/
def parseDate (s : String) : Option DateYMD :=
  match splitOnChar (Char.ofNat 45) s.toList with
  | [ys, ms, ds] =>
    match digitField ys, digitField ms, digitField ds with
    | some y, some m, some d =>
      if 1 ≤ m ∧ m ≤ 12 ∧ 1 ≤ d ∧ d ≤ daysInMonth y m then some ⟨y, m, d⟩ else none
    | _, _, _ => none
  | _ => none

/-- Embedding of `sources.filter_by_date`: keep rows whose date parses and
falls inside the inclusive window, then sort ascending by the date string
(Python's stable `list.sort(key=lambda x: x.date)`). -/
def filter_by_date (rows : List PriceRow) (start_date end_date : DateYMD) : List PriceRow :=
  let filtered := rows.filter fun r =>
    match parseDate r.date with
    | none => false
    | some d => decide (dateKey start_date ≤ dateKey d ∧ dateKey d ≤ dateKey end_date)
  List.insertionSort (fun a b : PriceRow => strLe a.date b.date = true) filtered

/-! ## Table model: `INSERT OR REPLACE` as a keyed upsert -/

/-- SQLite `INSERT OR REPLACE` on a table with a unique key: the conflicting
row (if any) is deleted and the new row inserted. -/
def upsertRow {α : Type} {κ : Type} [DecidableEq κ] (key : α → κ)
    (t : List α) (r : α) : List α :=
  (t.filter fun x => !decide (key x = key r)) ++ [r]

/-- Executing one `INSERT OR REPLACE` per element of `rows`, in order. -/
def upsertAll {α : Type} {κ : Type} [DecidableEq κ] (key : α → κ)
    (t : List α) (rows : List α) : List α :=
  rows.foldl (upsertRow key) t

/-! ## Persistence layer (`pipeline/db.py`) -/

/-- Row of the `price_daily` table. -/
structure PriceDBRow where
  market : String
  symbol : String
  date : String
  «open» : ℚ
  high : ℚ
  low : ℚ
  close : ℚ
  volume : ℚ
  source : String
  created_at : String
deriving DecidableEq

/-- Primary key of `price_daily`: `(market, symbol, date)`. -/
def priceKey (r : PriceDBRow) : String × String × String :=
  (r.market, r.symbol, r.date)

/-- Embedding of `db.save_prices`: one `INSERT OR REPLACE` per input row.
`created_at` is the `datetime.utcnow()` stamp taken once per call, passed in
as an explicit input of the embedding. -/
def save_prices (t : List PriceDBRow) (market symbol : String)
    (rows : List PriceRow) (created_at : String) : List PriceDBRow :=
  rows.foldl
    (fun acc row => upsertRow priceKey acc
      ⟨market, symbol, row.date, row.«open», row.high, row.low, row.close,
        row.volume, row.source, created_at⟩)
    t

/-- One indicator result dict produced by `indicators.compute_indicators`. -/
structure IndicatorRow where
  date : String
  sma20 : Option ℚ
  sma50 : Option ℚ
  ema12 : Option ℚ
  ema26 : Option ℚ
  rsi14 : Option ℚ
  macd : Option ℚ
  macd_signal : Option ℚ
  macd_hist : Option ℚ
  bb_mid : Option ℚ
  bb_upper : Option ℚ
  bb_lower : Option ℚ
deriving DecidableEq

/-- Row of the `indicators_daily` table. -/
structure IndicatorDBRow where
  market : String
  symbol : String
  item : IndicatorRow
  created_at : String
deriving DecidableEq

/-- Primary key of `indicators_daily`: `(market, symbol, date)`. -/
def indicatorKey (r : IndicatorDBRow) : String × String × String :=
  (r.market, r.symbol, r.item.date)

/-- Embedding of `db.save_indicators`. -/
def save_indicators (t : List IndicatorDBRow) (market symbol : String)
    (indicators : List IndicatorRow) (created_at : String) : List IndicatorDBRow :=
  indicators.foldl
    (fun acc item => upsertRow indicatorKey acc ⟨market, symbol, item, created_at⟩)
    t

/-- A fetched news item (a Python dict; absent keys are `none`). -/
structure NewsItemIn where
  title : Option String
  url : Option String
  published_at : Option String
  source : Option String
deriving DecidableEq

/-- Row of the `news_items` table (`published_at` is nullable). -/
structure NewsDBRow where
  market : String
  symbol : String
  published_at : Option String
  title : String
  url : String
  source : String
  created_at : String
deriving DecidableEq

/-- Primary key of `news_items`: `(market, symbol, url)`. -/
def newsKey (r : NewsDBRow) : String × String × String :=
  (r.market, r.symbol, r.url)

/-- Embedding of `db.save_news`: items whose `url` is missing or empty are
skipped (`continue`), the rest are upserted with defaulted fields. -/
def save_news (t : List NewsDBRow) (market symbol : String)
    (items : List NewsItemIn) (created_at : String) : List NewsDBRow :=
  items.foldl
    (fun acc item =>
      let url := item.url.getD ""
      if url = "" then acc
      else upsertRow newsKey acc
        ⟨market, symbol, item.published_at, item.title.getD "", url,
          item.source.getD "google_news", created_at⟩)
    t

/-- A fetched sentiment item (a Python dict; absent keys are `none`). -/
structure SentimentItemIn where
  title : Option String
  url : Option String
  published_at : Option String
  source : Option String
  score : Option ℚ
deriving DecidableEq

/-- Row of the `sentiment_items` table. -/
structure SentimentDBRow where
  market : String
  symbol : String
  published_at : Option String
  title : String
  url : String
  source : String
  score : ℚ
  created_at : String
deriving DecidableEq

/-- Primary key of `sentiment_items`: `(market, symbol, url)`. -/
def sentimentKey (r : SentimentDBRow) : String × String × String :=
  (r.market, r.symbol, r.url)

/-- Embedding of `db.save_sentiment`: empty-url items are skipped, the rest
upserted; `score` is `float(item.get("score") or 0.0)`. -/
def save_sentiment (t : List SentimentDBRow) (market symbol : String)
    (items : List SentimentItemIn) (created_at : String) : List SentimentDBRow :=
  items.foldl
    (fun acc item =>
      let url := item.url.getD ""
      if url = "" then acc
      else upsertRow sentimentKey acc
        ⟨market, symbol, item.published_at, item.title.getD "", url,
          item.source.getD "reddit", item.score.getD 0, created_at⟩)
    t

/-- Row of the `financials` table. Rows written before the schema migration
may have a SQL NULL `period_end`, hence the `Option`. -/
structure FinDBRow where
  market : String
  symbol : String
  period_end : Option String
  report_type : String
  payload_json : String
  source : String
  created_at : String
deriving DecidableEq

/-- Primary key of the migrated `financials` table:
`(market, symbol, report_type, period_end)`. -/
def finKey (r : FinDBRow) : String × String × String × Option String :=
  (r.market, r.symbol, r.report_type, r.period_end)

/-- Embedding of `db.save_financials`. The payload dict is abstracted as
`none` for an empty dict (the function returns without writing) and
`some json` for a non-empty dict together with its `json.dumps` image. -/
def save_financials (t : List FinDBRow) (market symbol period_end report_type : String)
    (payload : Option String) (source created_at : String) : List FinDBRow :=
  match payload with
  | none => t
  | some payload_json =>
    upsertRow finKey t ⟨market, symbol, some period_end, report_type, payload_json, source, created_at⟩

/-- The `financials` table together with the primary-key ordinal that
`PRAGMA table_info` reports for its `period_end` column (`0` when the column
is not part of the primary key — the pre-migration layout). -/
structure FinTable where
  periodEndPk : ℕ
  rows : List FinDBRow
deriving DecidableEq

/-- The whole pipeline database file; `none` means the table does not exist
yet. -/
structure PipelineDB where
  price_daily : Option (List PriceDBRow)
  indicators_daily : Option (List IndicatorDBRow)
  news_items : Option (List NewsDBRow)
  financials : Option FinTable
  sentiment_items : Option (List SentimentDBRow)
deriving DecidableEq

/-- Embedding of `db.init_pipeline_db`: `CREATE TABLE IF NOT EXISTS` for the
four plain tables, and the one-time `financials` migration — when the table
exists with `period_end` not part of the primary key, it is rebuilt with the
composite key `(market, symbol, report_type, period_end)` (ordinal 4 for
`period_end`) and the rows copied with `COALESCE(period_end, '')`. -/
def init_pipeline_db (db : PipelineDB) : PipelineDB :=
  { price_daily := some (db.price_daily.getD [])
    indicators_daily := some (db.indicators_daily.getD [])
    news_items := some (db.news_items.getD [])
    financials :=
      match db.financials with
      | some t =>
        if t.periodEndPk = 0 then
          some ⟨4, t.rows.map fun r => { r with period_end := some (r.period_end.getD "") }⟩
        else some t
      | none => some ⟨4, []⟩
    sentiment_items := some (db.sentiment_items.getD []) }

/-! ## Source adapters (`pipeline/sources.py`) and the fallback chain
(`pipeline/runner.py`).

A network fetch is embedded as an `Except String` value: `.error` stands for
the adapter raising, `.ok` carries the parsed upstream payload. -/

/-- One CSV record of the stooq daily download (values already parsed;
`none` stands for a missing or empty field, matching `float(x or 0.0)`). -/
structure StooqItem where
  date : Option String
  openV : Option ℚ
  highV : Option ℚ
  lowV : Option ℚ
  closeV : Option ℚ
  volumeV : Option ℚ
deriving DecidableEq

/-- Embedding of `sources.fetch_stooq_daily` applied to a parsed CSV body:
records with a missing or empty `Date` are skipped, every produced row is
tagged `source="stooq"`. -/
def fetch_stooq_daily (items : List StooqItem) : List PriceRow :=
  items.filterMap fun it =>
    if it.date.getD "" = "" then none
    else some ⟨it.date.getD "", it.openV.getD 0, it.highV.getD 0, it.lowV.getD 0,
      it.closeV.getD 0, it.volumeV.getD 0, "stooq"⟩

/-- One record of the FinMind `TaiwanStockPrice` payload. -/
structure FinmindItem where
  date : Option String
  openV : Option ℚ
  maxV : Option ℚ
  minV : Option ℚ
  closeV : Option ℚ
  tradingVolumeUpper : Option ℚ
  tradingVolumeLower : Option ℚ
deriving DecidableEq

/-- Python `a or b or 0.0` over two optional floats (`0` is falsy). -/
def pyOrFloat (a b : Option ℚ) : ℚ :=
  match a with
  | some v => if v = 0 then (b.getD 0) else v
  | none => b.getD 0

/-- Embedding of `sources.fetch_finmind_daily`: an empty token short-circuits
to no data; otherwise one row per payload record, tagged `source="finmind"`. -/
def fetch_finmind_daily (token : String) (items : List FinmindItem) : List PriceRow :=
  if token = "" then []
  else items.map fun it =>
    ⟨it.date.getD "", it.openV.getD 0, it.maxV.getD 0, it.minV.getD 0,
      it.closeV.getD 0, pyOrFloat it.tradingVolumeUpper it.tradingVolumeLower, "finmind"⟩

/-- One row of the yfinance download frame, with its ISO date index. -/
structure YfItem where
  dateIdx : String
  openV : Option ℚ
  highV : Option ℚ
  lowV : Option ℚ
  closeV : Option ℚ
  volumeV : Option ℚ
deriving DecidableEq

/-- Embedding of `sources.fetch_yfinance_daily`: `none` input stands for the
optional `yfinance` import being unavailable; an empty frame gives no rows;
every produced row is tagged `source="yfinance"`. -/
def fetch_yfinance_daily (data : Option (List YfItem)) : List PriceRow :=
  match data with
  | none => []
  | some rows =>
    if rows.isEmpty then []
    else rows.map fun it =>
      ⟨it.dateIdx, it.openV.getD 0, it.highV.getD 0, it.lowV.getD 0,
        it.closeV.getD 0, it.volumeV.getD 0, "yfinance"⟩

/-- Embedding of `utils.safe_call`: a raising call is replaced by the
default (the logging side effect is dropped). -/
def safeCall {α : Type} (call : Except String α) (default : α) : α :=
  match call with
  | .ok v => v
  | .error _ => default

/-- The US price fallback chain of `runner.process_symbol`: stooq (windowed
through `filter_by_date` inside the guarded lambda) first, yfinance second;
an empty first result — raised or empty — falls through to the second. -/
def selectPriceRowsUS (stooqRes : Except String (List StooqItem))
    (yfRes : Except String (Option (List YfItem)))
    (start_date end_date : DateYMD) : List PriceRow :=
  let price_rows := safeCall
    (stooqRes.map fun items => filter_by_date (fetch_stooq_daily items) start_date end_date) []
  if price_rows.isEmpty then safeCall (yfRes.map fetch_yfinance_daily) []
  else price_rows

/-- The TW price fallback chain of `runner.process_symbol`: finmind first,
yfinance second; neither result passes through `filter_by_date`. -/
def selectPriceRowsTW (finmindRes : Except String (List FinmindItem)) (token : String)
    (yfRes : Except String (Option (List YfItem))) : List PriceRow :=
  let price_rows := safeCall (finmindRes.map (fetch_finmind_daily token)) []
  if price_rows.isEmpty then safeCall (yfRes.map fetch_yfinance_daily) []
  else price_rows

/-! ## Retry client (`utils.request_with_retry`)

The process-wide inter-request throttle is wall-clock state outside the
claims; only the retry/backoff/raise behaviour is embedded. `statuses a` is
the HTTP status the upstream returns to attempt `a`. -/

/-- The transient statuses `{429, 500, 502, 503, 504}`. -/
def transientStatus (s : ℕ) : Bool :=
  s = 429 || s = 500 || s = 502 || s = 503 || s = 504

/-- Loop body of `request_with_retry` from attempt number `attempt`, with
`fuel = max_retries - attempt` further loop iterations available: a
transient status before the final attempt sleeps
`backoff_sec * 2 ^ (attempt - 1)` and retries; otherwise
`raise_for_status` raises exactly when the status is an HTTP error (≥ 400),
else the response is returned. Yields the outcome (`.error s` = raised with
status `s`, `.ok s` = returned response with status `s`) and the list of
backoff sleeps performed. -/
def retryGo (backoff_sec : ℚ) (statuses : ℕ → ℕ) (max_retries : ℕ) :
    ℕ → ℕ → Except ℕ ℕ × List ℚ
  | 0, attempt =>
    if 400 ≤ statuses attempt then (.error (statuses attempt), [])
    else (.ok (statuses attempt), [])
  | fuel + 1, attempt =>
    let s := statuses attempt
    if transientStatus s ∧ attempt < max_retries then
      let rest := retryGo backoff_sec statuses max_retries fuel (attempt + 1)
      (rest.1, backoff_sec * 2 ^ (attempt - 1) :: rest.2)
    else if 400 ≤ s then (.error s, [])
    else (.ok s, [])

/-- Embedding of `utils.request_with_retry`: the `for attempt in
range(1, max_retries + 1)` loop starting at attempt 1 (`max_retries ≥ 1` is
assumed, matching the configuration default of 3). -/
def request_with_retry (backoff_sec : ℚ) (statuses : ℕ → ℕ) (max_retries : ℕ) :
    Except ℕ ℕ × List ℚ :=
  retryGo backoff_sec statuses max_retries (max_retries - 1) 1

/-! ## Indicator engine (`pipeline/indicators.py`)

IEEE-754 doubles are idealised as `ℚ`; a pandas `NaN` cell is `none`.
`pandas.Series.ewm(adjust=False, min_periods=p).mean()` is embedded
operationally: the running mean is `y ← (1-α)·y + α·x` over the non-NaN
values, positions seen before `p` non-NaN observations are masked to `NaN`,
and a NaN input cell carries the previous mean forward (in this pipeline
NaN cells only ever form a prefix of the input, so the carry branch is
never reached with fewer observations than the mask allows). -/

/-- Walk of the ewm recursion: state is (last mean if any, count of non-NaN
observations so far). -/
def ewmMaskedGo (α : ℚ) (min_periods : ℕ) (last : Option ℚ) (count : ℕ) :
    List (Option ℚ) → List (Option ℚ)
  | [] => []
  | none :: xs =>
    (if min_periods ≤ count then last else none) :: ewmMaskedGo α min_periods last count xs
  | some x :: xs =>
    let y := match last with
      | none => x
      | some y0 => (1 - α) * y0 + α * x
    (if min_periods ≤ count + 1 then some y else none) ::
      ewmMaskedGo α min_periods (some y) (count + 1) xs

/-- `series.ewm(..., adjust=False, min_periods=p).mean()`. -/
def ewmMasked (α : ℚ) (min_periods : ℕ) (x : List (Option ℚ)) : List (Option ℚ) :=
  ewmMaskedGo α min_periods none 0 x

/-- Mean of the rolling window of width `n` ending at index `i`. -/
def windowSlice (n : ℕ) (c : List ℚ) (i : ℕ) : List ℚ :=
  (c.take (i + 1)).drop (i + 1 - n)

/-- Embedding of `indicators._sma`:
`series.rolling(window=n, min_periods=n).mean()`. -/
def smaList (n : ℕ) (c : List ℚ) : List (Option ℚ) :=
  (List.range c.length).map fun i =>
    if n ≤ i + 1 then some ((windowSlice n c i).sum / (n : ℚ)) else none

/-- Embedding of `indicators._ema`:
`series.ewm(span=n, adjust=False, min_periods=n).mean()`, smoothing factor
`2/(n+1)`. -/
def emaList (n : ℕ) (c : List ℚ) : List (Option ℚ) :=
  ewmMasked (2 / (n + 1 : ℚ)) n (c.map some)

/-- Daily close deltas `series.diff()`: NaN at index 0, then
`c[i] - c[i-1]` (empty for an empty series). -/
def diffSeries (c : List ℚ) : List (Option ℚ) :=
  match c with
  | [] => []
  | _ :: _ => none :: (List.zipWith (fun a b => a - b) c.tail c).map some

/-- The RSI arithmetic `100 - 100/(1 + avg_gain/avg_loss)` under IEEE-754
semantics: a zero `avg_loss` makes `rs` infinite and the result exactly 100
unless `avg_gain` is also zero, in which case `rs` is NaN and so is the
result. -/
def rsiArith (g l : ℚ) : Option ℚ :=
  if l = 0 then (if g = 0 then none else some 100)
  else some (100 - 100 / (1 + g / l))

/-- NaN-propagating elementwise combination of two columns. -/
def zipOpt (f : ℚ → ℚ → Option ℚ) (a b : List (Option ℚ)) : List (Option ℚ) :=
  List.zipWith (fun x y =>
    match x, y with
    | some u, some v => f u v
    | _, _ => none) a b

/-- Embedding of `indicators._rsi` (length 14 in the engine): Wilder
smoothing `ewm(alpha=1/n, adjust=False, min_periods=n)` over the clipped
gains and losses of the delta series. -/
def rsiList (n : ℕ) (c : List ℚ) : List (Option ℚ) :=
  let delta := diffSeries c
  let gain := delta.map (Option.map fun d => max d 0)
  let loss := delta.map (Option.map fun d => max (-d) 0)
  let avg_gain := ewmMasked (1 / (n : ℚ)) n gain
  let avg_loss := ewmMasked (1 / (n : ℚ)) n loss
  zipOpt rsiArith avg_gain avg_loss

/-- The `macd` column of `indicators._macd(12, 26, 9)`:
`_ema(12) - _ema(26)`. -/
def macdLineList (c : List ℚ) : List (Option ℚ) :=
  zipOpt (fun a b => some (a - b)) (emaList 12 c) (emaList 26 c)

/-- The `signal` column: `macd.ewm(span=9, adjust=False, min_periods=9)`. -/
def macdSignalList (c : List ℚ) : List (Option ℚ) :=
  ewmMasked (2 / (9 + 1 : ℚ)) 9 (macdLineList c)

/-- The `hist` column: `macd - signal`. -/
def macdHistList (c : List ℚ) : List (Option ℚ) :=
  zipOpt (fun a b => some (a - b)) (macdLineList c) (macdSignalList c)

/-- Executable stand-in for IEEE `sqrt`, correct to 1e-9. No claim touches
a Bollinger band value — only whether the cell is NaN — so only totality
and determinism of this function matter. -/
def fsqrt (q : ℚ) : ℚ :=
  (Nat.sqrt (q * 10 ^ 18).floor.toNat : ℚ) / 10 ^ 9

/-- Sample standard deviation (pandas `rolling(...).std()`, `ddof=1`) of a
window. -/
def sampleStd (w : List ℚ) : ℚ :=
  fsqrt (((w.map fun x => (x - w.sum / (w.length : ℚ)) ^ 2).sum) / ((w.length : ℚ) - 1))

/-- The rolling standard deviation column of `indicators._bbands`. -/
def bbStdList (n : ℕ) (c : List ℚ) : List (Option ℚ) :=
  (List.range c.length).map fun i =>
    if n ≤ i + 1 then some (sampleStd (windowSlice n c i)) else none

/-- Embedding of `indicators.compute_indicators`: empty input gives an empty
result; otherwise one `IndicatorRow` per input row, in input order, with
NaN cells rendered as `none` by `as_optional`. -/
def compute_indicators (rows : List PriceRow) : List IndicatorRow :=
  if rows.isEmpty then []
  else
    let closes := rows.map PriceRow.close
    let sma20L := smaList 20 closes
    let sma50L := smaList 50 closes
    let ema12L := emaList 12 closes
    let ema26L := emaList 26 closes
    let rsiL := rsiList 14 closes
    let macdL := macdLineList closes
    let sigL := macdSignalList closes
    let histL := macdHistList closes
    let bbMidL := smaList 20 closes
    let bbStdL := bbStdList 20 closes
    let bbUpL := zipOpt (fun m d => some (m + 2 * d)) bbMidL bbStdL
    let bbLoL := zipOpt (fun m d => some (m - 2 * d)) bbMidL bbStdL
    (List.range rows.length).map fun i =>
      ⟨((rows.get? i).map PriceRow.date).getD "",
        (sma20L.get? i).getD none, (sma50L.get? i).getD none,
        (ema12L.get? i).getD none, (ema26L.get? i).getD none,
        (rsiL.get? i).getD none,
        (macdL.get? i).getD none, (sigL.get? i).getD none, (histL.get? i).getD none,
        (bbMidL.get? i).getD none, (bbUpL.get? i).getD none, (bbLoL.get? i).getD none⟩

/-! ## Accuracy comparator (`reporter/storage.py`)

SQL `TEXT` columns compare with the BINARY collation, i.e. the
lexicographic `String` order; ISO dates therefore sort chronologically. -/

/-- Row of the `reports` table. -/
structure ReportRow where
  market : String
  symbol : String
  report_date : String
  price : ℚ
  ai_summary : String
  ai_prediction : String
  created_at : String
deriving DecidableEq

/-- Primary key of `reports`: `(market, symbol, report_date)`. -/
def reportKey (r : ReportRow) : String × String × String :=
  (r.market, r.symbol, r.report_date)

/-- Row of the `accuracy` table (`hit` is stored as `INTEGER 0/1`; embedded
as `Bool`). -/
structure AccuracyRow where
  market : String
  symbol : String
  report_date : String
  report_price : ℚ
  compare_date : String
  compare_price : ℚ
  ai_prediction : String
  actual_direction : String
  hit : Bool
  created_at : String
deriving DecidableEq

/-- Primary key of `accuracy`: `(market, symbol, report_date)`. -/
def accuracyKey (r : AccuracyRow) : String × String × String :=
  (r.market, r.symbol, r.report_date)

/-- The part of a `TickerSnapshot` the comparator reads. -/
structure SnapshotIn where
  symbol : String
  price : ℚ
deriving DecidableEq

/-- Embedding of `storage.save_reports`: one report row per snapshot, with
the prediction dict defaulted to "unknown". -/
def save_reports (t : List ReportRow) (market report_date : String)
    (snapshots : List SnapshotIn) (ai_summary : String)
    (predictions : List (String × String)) (created_at : String) : List ReportRow :=
  snapshots.foldl
    (fun acc snapshot => upsertRow reportKey acc
      ⟨market, snapshot.symbol, report_date, snapshot.price, ai_summary,
        ((predictions.lookup snapshot.symbol).getD "unknown"), created_at⟩)
    t

/-- `ORDER BY report_date DESC` on strings. -/
def sortDescStr (l : List String) : List String :=
  List.insertionSort (fun a b : String => strLe b a = true) l

/-- All prior report dates of a symbol, most recent first: the result of the
comparator's `SELECT report_date ... ORDER BY report_date DESC` before the
`LIMIT` is applied. -/
def priorDatesSorted (t : List ReportRow) (market symbol compare_date : String) :
    List String :=
  sortDescStr ((t.filter fun r =>
    r.market == market && r.symbol == symbol && strLt r.report_date compare_date).map
      ReportRow.report_date)

/-- The `SELECT report_date ... ORDER BY report_date DESC LIMIT 7` result in
`storage.compare_predictions`. -/
def priorReportDates (t : List ReportRow) (market symbol compare_date : String) :
    List String :=
  (priorDatesSorted t market symbol compare_date).take 7

/-- Target-date selection of `storage.compare_predictions`: skip when there
is no prior report; with at least 7 fetched dates take `report_dates[-1]`,
otherwise `report_dates[0]`. -/
def selectTargetDate (t : List ReportRow) (market symbol compare_date : String) :
    Option String :=
  let report_dates := priorReportDates t market symbol compare_date
  if report_dates.isEmpty then none
  else if 7 ≤ report_dates.length then report_dates.getLast?
  else report_dates.head?

/-- Modelled from the spec: "if fewer than N prior reports exist, use the
oldest available one instead" — the oldest (minimal) prior report date. -/
def oldestPriorDate (t : List ReportRow) (market symbol compare_date : String) :
    Option String :=
  (priorDatesSorted t market symbol compare_date).getLast?

/-- The `SELECT price, ai_prediction ... WHERE report_date = ?` row fetch. -/
def lookupReport (t : List ReportRow) (market symbol target_date : String) :
    Option ReportRow :=
  (t.filter fun r =>
    r.market == market && r.symbol == symbol && r.report_date == target_date).head?

/-- Body of the `storage.compare_predictions` loop for one snapshot:
select the target date, fetch its report, skip "unknown" predictions, infer
the realized direction from today's price against the report price, and
upsert one accuracy row keyed by the prior report's date. -/
def compare_predictions_step (t : List ReportRow) (acc : List AccuracyRow)
    (market : String) (snapshot : SnapshotIn) (predictions : List (String × String))
    (compare_date created_at : String) : List AccuracyRow :=
  match selectTargetDate t market snapshot.symbol compare_date with
  | none => acc
  | some target_date =>
    match lookupReport t market snapshot.symbol target_date with
    | none => acc
    | some r =>
      if r.ai_prediction = "unknown" then acc
      else
        let ai_prediction :=
          if r.ai_prediction = "" then (predictions.lookup snapshot.symbol).getD "unknown"
          else r.ai_prediction
        let actual_direction :=
          if r.price < snapshot.price then "up"
          else if snapshot.price < r.price then "down"
          else "neutral"
        let hit := ai_prediction == actual_direction
        upsertRow accuracyKey acc
          ⟨market, snapshot.symbol, target_date, r.price, compare_date,
            snapshot.price, ai_prediction, actual_direction, hit, created_at⟩

/-- Embedding of `storage.compare_predictions` over all snapshots. -/
def compare_predictions (t : List ReportRow) (acc : List AccuracyRow)
    (market : String) (snapshots : List SnapshotIn)
    (predictions : List (String × String)) (compare_date created_at : String) :
    List AccuracyRow :=
  snapshots.foldl
    (fun a snapshot => compare_predictions_step t a market snapshot predictions
      compare_date created_at)
    acc

/-! ## Spec-side definitions used to state the claims -/

/-- Arithmetic mean of the trailing `n` closes of a series. -/
def trailingMean (n : ℕ) (c : List ℚ) : ℚ :=
  (c.drop (c.length - n)).sum / (n : ℚ)

/-- The price-daily row `save_prices` builds from a fetched `PriceRow`. -/
def toPriceDBRow (market symbol : String) (created_at : String) (r : PriceRow) :
    PriceDBRow :=
  ⟨market, symbol, r.date, r.«open», r.high, r.low, r.close, r.volume, r.source, created_at⟩

/-- The news row `save_news` builds from a kept item. -/
def toNewsDBRow (market symbol created_at : String) (item : NewsItemIn) : NewsDBRow :=
  ⟨market, symbol, item.published_at, item.title.getD "", item.url.getD "",
    item.source.getD "google_news", created_at⟩

/-- The sentiment row `save_sentiment` builds from a kept item. -/
def toSentimentDBRow (market symbol created_at : String) (item : SentimentItemIn) :
    SentimentDBRow :=
  ⟨market, symbol, item.published_at, item.title.getD "", item.url.getD "",
    item.source.getD "reddit", item.score.getD 0, created_at⟩

/-- Concrete rows used by witnesses. -/
def samplePriceRow : PriceRow :=
  ⟨"2024-01-02", 1, 2, 1, 2, 100, "stooq"⟩

/-- A concrete `price_daily` row for witnesses. -/
def samplePriceDBRow : PriceDBRow :=
  ⟨"us", "AAPL", "2024-01-02", 1, 2, 1, 2, 100, "stooq", "t"⟩

/-- Number of non-NaN cells in a column segment (pandas' running count of
observations for `min_periods`). -/
def countSome (l : List (Option ℚ)) : ℕ := l.countP fun o => o.isSome

/-- Whether a rational series is strictly increasing (executable form of
the C8 hypothesis). -/
def chainLtQ : List ℚ → Bool
  | [] => true
  | [_] => true
  | a :: b :: rest => decide (a < b) && chainLtQ (b :: rest)

/-- A synthetic strictly-increasing price series (witness input). -/
def syntheticRows (n : ℕ) : List PriceRow :=
  (List.range n).map fun i => ⟨"2024-01-02", 0, 0, 0, (i : ℚ), 0, "stooq"⟩

/-- The all-absent indicator row a single-row series produces (witness
value). -/
def c7Row : IndicatorRow :=
  ⟨"2024-01-02", none, none, none, none, none, none, none, none, none, none, none⟩

/-- A status schedule answering 404 to every attempt (witness input). -/
def statusAlways404 : ℕ → ℕ := fun _ => 404

/-- A concrete reports table with two prior reports (witness and
counterexample input). -/
def c1Table : List ReportRow :=
  [⟨"us", "AAPL", "2024-01-01", 100, "s", "up", "t"⟩,
    ⟨"us", "AAPL", "2024-01-05", 102, "s", "down", "t"⟩]

/-! ## Theorems -/

theorem charListLt_asymm :
    ∀ as bs, charListLt as bs = true → charListLt bs as = false := by
  intro as
  induction as with
  | nil =>
    intro bs h
    cases bs with
    | nil => simpa [charListLt] using h
    | cons b bs => simp [charListLt]
  | cons a as ih =>
    intro bs h
    cases bs with
    | nil => simpa [charListLt] using h
    | cons b bs =>
      rw [charListLt] at h ⊢
      by_cases h1 : a.toNat < b.toNat
      · rw [if_neg (by omega), if_neg (by omega)]
      · rw [if_neg h1] at h
        by_cases h2 : a.toNat = b.toNat
        · rw [if_pos h2] at h
          rw [if_neg (by omega), if_pos (by omega)]
          exact ih bs h
        · rw [if_neg h2] at h
          exact absurd h (by simp)

theorem charListLt_split :
    ∀ as bs cs, charListLt cs as = true →
      charListLt cs bs = true ∨ charListLt bs as = true := by
  intro as
  induction as with
  | nil =>
    intro bs cs h
    cases cs with
    | nil => simp [charListLt] at h
    | cons c cs => simp [charListLt] at h
  | cons a as ih =>
    intro bs cs h
    cases bs with
    | nil =>
      right
      simp [charListLt]
    | cons b bs =>
      cases cs with
      | nil =>
        left
        simp [charListLt]
      | cons c cs =>
        rw [charListLt] at h ⊢
        rw [show charListLt (b :: bs) (a :: as) =
          (if b.toNat < a.toNat then true
            else if b.toNat = a.toNat then charListLt bs as else false) from rfl]
        by_cases hcb : c.toNat < b.toNat
        · left
          rw [if_pos hcb]
        · by_cases hba : b.toNat < a.toNat
          · right
            rw [if_pos hba]
          · by_cases hca : c.toNat < a.toNat
            · omega
            · rw [if_neg hca] at h
              by_cases hceq : c.toNat = a.toNat
              · rw [if_pos hceq] at h
                have hbeq : b.toNat = a.toNat := by omega
                have hcbeq : c.toNat = b.toNat := by omega
                rcases ih bs cs h with hl | hr
                · left
                  rw [if_neg hcb, if_pos hcbeq]
                  exact hl
                · right
                  rw [if_neg hba, if_pos hbeq]
                  exact hr
              · rw [if_neg hceq] at h
                exact absurd h (by simp)

instance : IsTotal PriceRow (fun a b : PriceRow => strLe a.date b.date = true) :=
  ⟨fun a b => by
    simp only [strLe, strLt, Bool.not_eq_true']
    by_cases h : charListLt b.date.toList a.date.toList = true
    · right
      exact charListLt_asymm _ _ h
    · left
      simpa using h⟩

instance : IsTrans PriceRow (fun a b : PriceRow => strLe a.date b.date = true) :=
  ⟨fun a b c h h' => by
    simp only [strLe, strLt, Bool.not_eq_true'] at *
    by_cases hca : charListLt c.date.toList a.date.toList = true
    · rcases charListLt_split a.date.toList b.date.toList c.date.toList hca with hl | hr
      · rw [h'] at hl
        exact absurd hl (by simp)
      · rw [h] at hr
        exact absurd hr (by simp)
    · simpa using hca⟩

instance : IsTotal String (fun a b : String => strLe b a = true) :=
  ⟨fun a b => by
    simp only [strLe, strLt, Bool.not_eq_true']
    by_cases h : charListLt a.toList b.toList = true
    · right
      exact charListLt_asymm _ _ h
    · left
      simpa using h⟩

instance : IsTrans String (fun a b : String => strLe b a = true) :=
  ⟨fun a b c h h' => by
    simp only [strLe, strLt, Bool.not_eq_true'] at *
    by_cases hca : charListLt a.toList c.toList = true
    · rcases charListLt_split c.toList b.toList a.toList hca with hl | hr
      · rw [h] at hl
        exact absurd hl (by simp)
      · rw [h'] at hr
        exact absurd hr (by simp)
    · simpa using hca⟩

theorem transient_ge_400 (s : ℕ) (h : transientStatus s = true) : 400 ≤ s := by
  simp only [transientStatus, Bool.or_eq_true, decide_eq_true_eq] at h
  rcases h with ((((h | h) | h) | h) | h) <;> omega

theorem retryGo_spec (backoff_sec : ℚ) (statuses : ℕ → ℕ) (max_retries : ℕ) :
    ∀ fuel attempt res sleeps, 1 ≤ attempt → max_retries = attempt + fuel →
    retryGo backoff_sec statuses max_retries fuel attempt = (res, sleeps) →
    (∀ i, i < sleeps.length → sleeps.get? i = some (backoff_sec * 2 ^ (attempt + i - 1)) ∧
      transientStatus (statuses (attempt + i)) = true)
    ∧ attempt + sleeps.length ≤ max_retries
    ∧ (∀ s, res = .ok s → s = statuses (attempt + sleeps.length) ∧
        s < 400 ∧ transientStatus s = false)
    ∧ (∀ s, res = .error s → s = statuses (attempt + sleeps.length) ∧
        400 ≤ s ∧ (transientStatus s = false ∨ attempt + sleeps.length = max_retries)) := by
  intro fuel
  induction fuel with
  | zero =>
    intro attempt res sleeps h1 hmax hEq
    by_cases h4 : 400 ≤ statuses attempt
    · rw [retryGo, if_pos h4] at hEq
      injection hEq with hres hsl
      subst hres hsl
      refine ⟨fun i hi => by simp at hi, by simp; omega, fun s hs => by simp at hs, ?_⟩
      intro s hs
      injection hs with h
      subst h
      exact ⟨by simp, h4, Or.inr (by simp; omega)⟩
    · rw [retryGo, if_neg h4] at hEq
      injection hEq with hres hsl
      subst hres hsl
      refine ⟨fun i hi => by simp at hi, by simp; omega, ?_, fun s hs => by simp at hs⟩
      intro s hs
      injection hs with h
      subst h
      refine ⟨by simp, by omega, ?_⟩
      by_cases ht : transientStatus (statuses attempt) = true
      · exact absurd (transient_ge_400 _ ht) h4
      · simpa using ht
  | succ fuel ih =>
    intro attempt res sleeps h1 hmax hEq
    by_cases hb : transientStatus (statuses attempt) = true ∧ attempt < max_retries
    · have hkey : retryGo backoff_sec statuses max_retries (fuel + 1) attempt =
          ((retryGo backoff_sec statuses max_retries fuel (attempt + 1)).1,
            backoff_sec * 2 ^ (attempt - 1) ::
              (retryGo backoff_sec statuses max_retries fuel (attempt + 1)).2) := by
        rw [retryGo, if_pos hb]
      rw [hkey] at hEq
      injection hEq with hres hsl
      subst hres hsl
      have hrec := ih (attempt + 1)
        (retryGo backoff_sec statuses max_retries fuel (attempt + 1)).1
        (retryGo backoff_sec statuses max_retries fuel (attempt + 1)).2
        (by omega) (by omega) Prod.mk.eta.symm
      refine ⟨?_, ?_, ?_, ?_⟩
      · intro i hi
        cases i with
        | zero => exact ⟨by simp, by simpa using hb.1⟩
        | succ j =>
          have hj := hrec.1 j (by simpa using hi)
          have he1 : attempt + 1 + j - 1 = attempt + (j + 1) - 1 := by omega
          have he2 : attempt + 1 + j = attempt + (j + 1) := by omega
          rw [he1, he2] at hj
          exact ⟨by simpa using hj.1, hj.2⟩
      · have := hrec.2.1
        simp only [List.length_cons]
        omega
      · intro s hs
        have hc := hrec.2.2.1 s hs
        have he : attempt + 1 + (retryGo backoff_sec statuses max_retries fuel (attempt + 1)).2.length =
            attempt + ((retryGo backoff_sec statuses max_retries fuel (attempt + 1)).2.length + 1) := by
          omega
        rw [he] at hc
        exact ⟨by simpa using hc.1, hc.2.1, hc.2.2⟩
      · intro s hs
        have hc := hrec.2.2.2 s hs
        have he : attempt + 1 + (retryGo backoff_sec statuses max_retries fuel (attempt + 1)).2.length =
            attempt + ((retryGo backoff_sec statuses max_retries fuel (attempt + 1)).2.length + 1) := by
          omega
        rw [he] at hc
        refine ⟨by simpa using hc.1, hc.2.1, ?_⟩
        rcases hc.2.2 with h | h
        · exact Or.inl h
        · right
          simpa using h
    · have hkey : retryGo backoff_sec statuses max_retries (fuel + 1) attempt =
          if 400 ≤ statuses attempt then (.error (statuses attempt), [])
          else (.ok (statuses attempt), []) := by
        rw [retryGo, if_neg hb]
      rw [hkey] at hEq
      by_cases h4 : 400 ≤ statuses attempt
      · rw [if_pos h4] at hEq
        injection hEq with hres hsl
        subst hres hsl
        refine ⟨fun i hi => by simp at hi, by simp; omega, fun s hs => by simp at hs, ?_⟩
        intro s hs
        injection hs with h
        subst h
        refine ⟨by simp, h4, ?_⟩
        by_cases ht : transientStatus (statuses attempt) = true
        · exact absurd (And.intro ht (by omega)) hb
        · exact Or.inl (by simpa using ht)
      · rw [if_neg h4] at hEq
        injection hEq with hres hsl
        subst hres hsl
        refine ⟨fun i hi => by simp at hi, by simp; omega, ?_, fun s hs => by simp at hs⟩
        intro s hs
        injection hs with h
        subst h
        refine ⟨by simp, by omega, ?_⟩
        by_cases ht : transientStatus (statuses attempt) = true
        · exact absurd (transient_ge_400 _ ht) h4
        · simpa using ht

/-- C9: the retry client retries only on the transient statuses 429, 500,
502, 503, 504, sleeping `base_backoff * 2^(attempt-1)` before each retry
(the i-th recorded sleep, 0-based, is `backoff * 2^i`), performs at most the
configured number of attempts, and a response is returned only for a
non-error status — any HTTP error status that is not transient, or a
transient status on the final attempt, is raised to the caller. -/
theorem retry_client_contract (backoff_sec : ℚ) (statuses : ℕ → ℕ)
    (max_retries : ℕ) (hmax : 1 ≤ max_retries) :
    (∀ i, i < (request_with_retry backoff_sec statuses max_retries).2.length →
      (request_with_retry backoff_sec statuses max_retries).2.get? i =
          some (backoff_sec * 2 ^ i) ∧
        transientStatus (statuses (1 + i)) = true)
    ∧ (request_with_retry backoff_sec statuses max_retries).2.length + 1 ≤ max_retries
    ∧ (∀ s, (request_with_retry backoff_sec statuses max_retries).1 = .ok s →
        s < 400 ∧ transientStatus s = false)
    ∧ (∀ s, (request_with_retry backoff_sec statuses max_retries).1 = .error s →
        400 ≤ s ∧ (transientStatus s = false ∨
          (request_with_retry backoff_sec statuses max_retries).2.length + 1 = max_retries)) := by
  have h := retryGo_spec backoff_sec statuses max_retries (max_retries - 1) 1
    (request_with_retry backoff_sec statuses max_retries).1
    (request_with_retry backoff_sec statuses max_retries).2
    (by omega) (by omega) Prod.mk.eta.symm
  refine ⟨?_, by have := h.2.1; omega, ?_, ?_⟩
  · intro i hi
    have hc := h.1 i hi
    have he : 1 + i - 1 = i := by omega
    rw [he] at hc
    exact hc
  · intro s hs
    exact ⟨(h.2.2.1 s hs).2.1, (h.2.2.1 s hs).2.2⟩
  · intro s hs
    refine ⟨(h.2.2.2 s hs).2.1, ?_⟩
    rcases (h.2.2.2 s hs).2.2 with hcase | hcase
    · exact Or.inl hcase
    · right
      omega

/-- Witness for C9: a bare 404 on the first of a single allowed attempt is
raised, not retried. -/
theorem retry_client_contract_witness :
    400 ≤ 404 ∧ (transientStatus 404 = false ∨
      (request_with_retry 1 statusAlways404 1).2.length + 1 = 1) :=
  (retry_client_contract 1 statusAlways404 1 (by decide)).2.2.2 404 rfl

theorem upsertAll_cons {α κ : Type} [DecidableEq κ] (key : α → κ)
    (t : List α) (r : α) (rs : List α) :
    upsertAll key t (r :: rs) = upsertAll key (upsertRow key t r) rs := rfl

theorem upsertAll_eq_filter_append {α κ : Type} [DecidableEq κ] (key : α → κ)
    (rows : List α) (t : List α) :
    upsertAll key t rows =
      (t.filter fun x => decide (key x ∉ rows.map key)) ++ upsertAll key [] rows := by
  induction rows generalizing t with
  | nil => simp [upsertAll]
  | cons r rs ih =>
    rw [upsertAll_cons, ih, upsertAll_cons key [] r rs, ih ((upsertRow key [] r))]
    show ((t.filter fun x => !decide (key x = key r)) ++ [r]).filter _ ++ _ =
      _ ++ (_ ++ _)
    rw [List.filter_append, List.filter_filter, List.append_assoc]
    have h1 : (t.filter fun a => decide (key a ∉ List.map key rs) && !decide (key a = key r)) =
        t.filter fun x => decide (key x ∉ List.map key (r :: rs)) := by
      apply List.filter_congr
      intro x _
      by_cases h : key x = key r <;> simp [h]
    have h2 : ([r].filter fun x => decide (key x ∉ List.map key rs)) =
        (upsertRow key [] r).filter fun x => decide (key x ∉ List.map key rs) := by
      simp [upsertRow]
    rw [h1, h2]

theorem key_mem_of_mem_upsertAll_nil {α κ : Type} [DecidableEq κ] (key : α → κ)
    (rows : List α) (x : α) (hx : x ∈ upsertAll key [] rows) :
    key x ∈ rows.map key := by
  induction rows with
  | nil => simp [upsertAll] at hx
  | cons r rs ih =>
    rw [upsertAll_cons, upsertAll_eq_filter_append] at hx
    rcases List.mem_append.mp hx with h | h
    · have := List.mem_filter.mp h
      rcases List.mem_singleton.mp (by
        have : x ∈ upsertRow key [] r := this.1
        simpa [upsertRow] using this) with rfl
      simp
    · exact List.mem_cons_of_mem _ (ih (by simpa [upsertAll] using h))

theorem upsertAll_idem {α κ : Type} [DecidableEq κ] (key : α → κ)
    (t : List α) (rows : List α) :
    upsertAll key (upsertAll key t rows) rows = upsertAll key t rows := by
  rw [upsertAll_eq_filter_append key rows (upsertAll key t rows),
    upsertAll_eq_filter_append key rows t, List.filter_append, List.filter_filter]
  have h₁ : (List.filter (fun x => decide (key x ∉ List.map key rows) &&
      decide (key x ∉ List.map key rows)) t) =
      t.filter fun x => decide (key x ∉ rows.map key) := by
    apply List.filter_congr; intro x _; by_cases h : key x ∈ rows.map key <;> simp [h]
  have h₂ : (upsertAll key [] rows).filter
      (fun x => decide (key x ∉ List.map key rows)) = [] := by
    rw [List.filter_eq_nil_iff]
    intro a ha
    simpa using key_mem_of_mem_upsertAll_nil key rows a ha
  rw [h₁, h₂, List.append_nil]

theorem pairwise_upsertAll {α κ : Type} [DecidableEq κ] (key : α → κ)
    (t : List α) (rows : List α)
    (ht : t.Pairwise fun a b => key a ≠ key b) :
    (upsertAll key t rows).Pairwise fun a b => key a ≠ key b := by
  induction rows generalizing t with
  | nil => simpa [upsertAll] using ht
  | cons r rs ih =>
    rw [upsertAll_cons]
    apply ih
    rw [upsertRow, List.pairwise_append]
    refine ⟨ht.filter _, List.pairwise_singleton _ _, ?_⟩
    intro a ha b hb
    rcases List.mem_singleton.mp hb with rfl
    have := List.mem_filter.mp ha
    simpa using this.2

theorem mem_upsertAll_of_key_not_mem {α κ : Type} [DecidableEq κ] (key : α → κ)
    (t : List α) (rows : List α) (x : α) (hx : key x ∉ rows.map key) :
    x ∈ upsertAll key t rows ↔ x ∈ t := by
  rw [upsertAll_eq_filter_append, List.mem_append]
  constructor
  · rintro (h | h)
    · exact (List.mem_filter.mp h).1
    · exact absurd (key_mem_of_mem_upsertAll_nil key rows x h) hx
  · intro h
    exact Or.inl (List.mem_filter.mpr ⟨h, by simpa using hx⟩)

theorem save_prices_eq_upsertAll (t : List PriceDBRow) (m s : String)
    (rows : List PriceRow) (c : String) :
    save_prices t m s rows c = upsertAll priceKey t (rows.map (toPriceDBRow m s c)) := by
  rw [upsertAll, List.foldl_map]
  rfl

theorem save_indicators_eq_upsertAll (t : List IndicatorDBRow) (m s : String)
    (ind : List IndicatorRow) (c : String) :
    save_indicators t m s ind c =
      upsertAll indicatorKey t (ind.map fun item => ⟨m, s, item, c⟩) := by
  rw [upsertAll, List.foldl_map]
  rfl

theorem save_reports_eq_upsertAll (t : List ReportRow) (m rd : String)
    (snaps : List SnapshotIn) (su : String) (preds : List (String × String)) (c : String) :
    save_reports t m rd snaps su preds c =
      upsertAll reportKey t (snaps.map fun snapshot =>
        ⟨m, snapshot.symbol, rd, snapshot.price, su,
          ((preds.lookup snapshot.symbol).getD "unknown"), c⟩) := by
  rw [upsertAll, List.foldl_map]
  rfl

theorem save_news_eq_upsertAll (t : List NewsDBRow) (m s : String)
    (items : List NewsItemIn) (c : String) :
    save_news t m s items c =
      upsertAll newsKey t
        ((items.filter fun it => !decide (it.url.getD "" = "")).map (toNewsDBRow m s c)) := by
  induction items generalizing t with
  | nil => rfl
  | cons it its ih =>
    show save_news (if it.url.getD "" = "" then t else _) m s its c = _
    by_cases h : it.url.getD "" = ""
    · rw [if_pos h, ih]
      simp [h]
    · rw [if_neg h, ih]
      simp only [h, decide_False, Bool.not_false, List.filter_cons_of_pos, List.map_cons]
      rfl

theorem save_sentiment_eq_upsertAll (t : List SentimentDBRow) (m s : String)
    (items : List SentimentItemIn) (c : String) :
    save_sentiment t m s items c =
      upsertAll sentimentKey t
        ((items.filter fun it => !decide (it.url.getD "" = "")).map (toSentimentDBRow m s c)) := by
  induction items generalizing t with
  | nil => rfl
  | cons it its ih =>
    show save_sentiment (if it.url.getD "" = "" then t else _) m s its c = _
    by_cases h : it.url.getD "" = ""
    · rw [if_pos h, ih]
      simp [h]
    · rw [if_neg h, ih]
      simp only [h, decide_False, Bool.not_false, List.filter_cons_of_pos, List.map_cons]
      rfl

/-- C3: every persisted entity write is a keyed upsert: executing any save
operation twice with identical input leaves the table identical to executing
it once; an upsert batch never introduces duplicate keys into a
unique-keyed table; and a row whose key is not in the batch is exactly
preserved (an existing row is only ever replaced by the new write for its
own key). -/
theorem persisted_writes_are_upserts :
    (∀ t m s rows c, save_prices (save_prices t m s rows c) m s rows c = save_prices t m s rows c)
    ∧ (∀ t m s ind c, save_indicators (save_indicators t m s ind c) m s ind c =
        save_indicators t m s ind c)
    ∧ (∀ t m s items c, save_news (save_news t m s items c) m s items c = save_news t m s items c)
    ∧ (∀ t m s pe rt p src c, save_financials (save_financials t m s pe rt p src c) m s pe rt p src c =
        save_financials t m s pe rt p src c)
    ∧ (∀ t m s items c, save_sentiment (save_sentiment t m s items c) m s items c =
        save_sentiment t m s items c)
    ∧ (∀ t m rd snaps su preds c, save_reports (save_reports t m rd snaps su preds c) m rd snaps su preds c =
        save_reports t m rd snaps su preds c)
    ∧ (∀ t rows, (t.Pairwise fun a b => priceKey a ≠ priceKey b) →
        ((upsertAll priceKey t rows).Pairwise fun a b => priceKey a ≠ priceKey b))
    ∧ (∀ t rows x, priceKey x ∉ rows.map priceKey →
        (x ∈ upsertAll priceKey t rows ↔ x ∈ t)) := by
  refine ⟨?_, ?_, ?_, ?_, ?_, ?_, ?_, ?_⟩
  · intro t m s rows c
    simp only [save_prices_eq_upsertAll, upsertAll_idem]
  · intro t m s ind c
    simp only [save_indicators_eq_upsertAll, upsertAll_idem]
  · intro t m s items c
    simp only [save_news_eq_upsertAll, upsertAll_idem]
  · intro t m s pe rt p src c
    cases p with
    | none => rfl
    | some j =>
      show upsertRow finKey (upsertRow finKey t _) _ = upsertRow finKey t _
      have := upsertAll_idem finKey t [(⟨m, s, some pe, rt, j, src, c⟩ : FinDBRow)]
      simpa [upsertAll] using this
  · intro t m s items c
    simp only [save_sentiment_eq_upsertAll, upsertAll_idem]
  · intro t m rd snaps su preds c
    simp only [save_reports_eq_upsertAll, upsertAll_idem]
  · intro t rows ht
    exact pairwise_upsertAll priceKey t rows ht
  · intro t rows x hx
    exact mem_upsertAll_of_key_not_mem priceKey t rows x hx

/-- Witness for C3 at concrete inputs. -/
theorem persisted_writes_are_upserts_witness :
    save_prices (save_prices [] "us" "AAPL" [samplePriceRow] "t") "us" "AAPL" [samplePriceRow] "t" =
      save_prices [] "us" "AAPL" [samplePriceRow] "t"
    ∧ ((upsertAll priceKey [] [samplePriceDBRow]).Pairwise fun a b => priceKey a ≠ priceKey b)
    ∧ (samplePriceDBRow ∈ upsertAll priceKey [samplePriceDBRow] ([] : List PriceDBRow) ↔
        samplePriceDBRow ∈ [samplePriceDBRow]) :=
  ⟨persisted_writes_are_upserts.1 [] "us" "AAPL" [samplePriceRow] "t",
    (persisted_writes_are_upserts.2.2.2.2.2.2.1 [] [samplePriceDBRow]) List.Pairwise.nil,
    (persisted_writes_are_upserts.2.2.2.2.2.2.2 [samplePriceDBRow] [] samplePriceDBRow)
      (by simp)⟩

/-- C6: schema initialization is idempotent — a second invocation changes
nothing — and the one-time financials migration is a no-op when the table
already has `period_end` in its composite primary key. -/
theorem schema_init_idempotent :
    (∀ db, init_pipeline_db (init_pipeline_db db) = init_pipeline_db db)
    ∧ (∀ db t, db.financials = some t → t.periodEndPk ≠ 0 →
        (init_pipeline_db db).financials = some t) := by
  constructor
  · intro db
    show PipelineDB.mk _ _ _ _ _ = PipelineDB.mk _ _ _ _ _
    simp only [init_pipeline_db, Option.getD_some]
    cases hf : db.financials with
    | none => simp
    | some t =>
      by_cases hpk : t.periodEndPk = 0 <;> simp [hpk]
  · intro db t hf hpk
    simp [init_pipeline_db, hf, hpk]

/-- Witness for C6 at a concrete database state. -/
theorem schema_init_idempotent_witness :
    (init_pipeline_db ⟨some [], some [], some [], some ⟨4, []⟩, some []⟩).financials =
      some ⟨4, []⟩ :=
  schema_init_idempotent.2 ⟨some [], some [], some [], some ⟨4, []⟩, some []⟩ ⟨4, []⟩
    rfl (by decide)

/-- C10: the news and sentiment saves silently skip items with a missing or
empty `url` — persisted rows are exactly the upsert, by key
`(market, symbol, url)`, of the items with a non-empty url — so the number
of persisted rows can be strictly smaller than the number of items passed
in (itself at most the 10-item cap). -/
theorem save_skips_items_without_url :
    (∀ t m s items c, save_news t m s items c =
      upsertAll newsKey t
        ((items.filter fun it => !decide (it.url.getD "" = "")).map (toNewsDBRow m s c)))
    ∧ (∀ t m s items c, save_sentiment t m s items c =
      upsertAll sentimentKey t
        ((items.filter fun it => !decide (it.url.getD "" = "")).map (toSentimentDBRow m s c)))
    ∧ (∃ items : List NewsItemIn, items.length ≤ 10 ∧
        (save_news [] "us" "AAPL" items "t").length < items.length)
    ∧ (∃ items : List SentimentItemIn, items.length ≤ 10 ∧
        (save_sentiment [] "us" "AAPL" items "t").length < items.length) := by
  refine ⟨save_news_eq_upsertAll, save_sentiment_eq_upsertAll, ?_, ?_⟩
  · exact ⟨[⟨some "title", none, none, none⟩], by decide, by decide⟩
  · exact ⟨[⟨some "title", some "", none, none, some 1⟩], by decide, by decide⟩

theorem sortDescStr_sorted (l : List String) :
    (sortDescStr l).Sorted fun a b : String => strLe b a = true :=
  List.sorted_insertionSort _ l

theorem sortDescStr_perm (l : List String) : List.Perm (sortDescStr l) l :=
  List.perm_insertionSort _ l

/-- C1 (amended): the comparison target is the 7th most recent prior report
date when at least 7 prior reports exist, and otherwise the MOST RECENT
prior report date (`report_dates[0]` of the descending-ordered fetch), not
the oldest; `priorDatesSorted` lists the prior report dates most recent
first. -/
theorem comparator_lookback_amended (t : List ReportRow) (m s cd : String) :
    ((priorDatesSorted t m s cd).Sorted fun a b : String => strLe b a = true)
    ∧ List.Perm (priorDatesSorted t m s cd)
        ((t.filter fun r =>
          r.market == m && r.symbol == s && strLt r.report_date cd).map
            ReportRow.report_date)
    ∧ (7 ≤ (priorDatesSorted t m s cd).length →
        selectTargetDate t m s cd = (priorDatesSorted t m s cd)[6]?)
    ∧ (priorDatesSorted t m s cd ≠ [] → (priorDatesSorted t m s cd).length < 7 →
        selectTargetDate t m s cd = (priorDatesSorted t m s cd)[0]?) := by
  refine ⟨sortDescStr_sorted _, sortDescStr_perm _, ?_, ?_⟩
  · intro h7
    have hlen : (priorReportDates t m s cd).length = 7 := by
      simp [priorReportDates, List.length_take]
      omega
    have hne : ¬(priorReportDates t m s cd).isEmpty := by
      rw [List.isEmpty_iff_length_eq_zero, hlen]
      omega
    rw [selectTargetDate]
    show (if (priorReportDates t m s cd).isEmpty then none
      else if 7 ≤ (priorReportDates t m s cd).length then (priorReportDates t m s cd).getLast?
      else (priorReportDates t m s cd).head?) = _
    rw [if_neg hne, if_pos (by omega), List.getLast?_eq_getElem?, hlen]
    show (priorReportDates t m s cd)[6]? = _
    rw [priorReportDates, List.getElem?_take_of_lt (by omega)]
  · intro hne hlt
    have htake : priorReportDates t m s cd = priorDatesSorted t m s cd := by
      rw [priorReportDates]
      exact List.take_of_length_le (by omega)
    have hne' : ¬(priorReportDates t m s cd).isEmpty := by
      rw [htake]
      simpa [List.isEmpty_iff] using hne
    rw [selectTargetDate]
    show (if (priorReportDates t m s cd).isEmpty then none
      else if 7 ≤ (priorReportDates t m s cd).length then (priorReportDates t m s cd).getLast?
      else (priorReportDates t m s cd).head?) = _
    rw [if_neg hne', if_neg (by rw [htake]; omega), htake, List.head?_eq_getElem?]

/-- Witness for C1's amended statement: with 2 < 7 prior reports the most
recent one ("2024-01-05") is selected. -/
theorem comparator_lookback_amended_witness :
    selectTargetDate c1Table "us" "AAPL" "2024-01-10" =
      (priorDatesSorted c1Table "us" "AAPL" "2024-01-10")[0]? :=
  (comparator_lookback_amended c1Table "us" "AAPL" "2024-01-10").2.2.2
    (by decide) (by decide)

/-- Counterexample to C1 as stated: with only 2 (< 7) prior reports the code
selects the most recent prior date "2024-01-05", not the oldest available
one "2024-01-01". -/
theorem comparator_lookback_counterexample :
    (priorDatesSorted c1Table "us" "AAPL" "2024-01-10").length = 2
    ∧ selectTargetDate c1Table "us" "AAPL" "2024-01-10" = some "2024-01-05"
    ∧ oldestPriorDate c1Table "us" "AAPL" "2024-01-10" = some "2024-01-01"
    ∧ selectTargetDate c1Table "us" "AAPL" "2024-01-10" ≠
        oldestPriorDate c1Table "us" "AAPL" "2024-01-10" := by
  refine ⟨by decide, by decide, by decide, by decide⟩

/-- C4: for a snapshot whose selected prior report carries a prediction
other than "unknown" (a well-formed one from the data model's domain, i.e.
non-empty), the comparator writes exactly one accuracy row keyed by
(market, symbol, prior report's date): actual_direction is "up" iff today's
price is strictly greater than the report price, "down" iff strictly less,
"neutral" otherwise, and hit holds iff the prior prediction equals
actual_direction; when the prior prediction is "unknown" nothing is
written. -/
theorem accuracy_comparison_correct :
    (∀ t acc m (snap : SnapshotIn) preds cd ts target_date r,
      selectTargetDate t m snap.symbol cd = some target_date →
      lookupReport t m snap.symbol target_date = some r →
      r.ai_prediction ≠ "unknown" → r.ai_prediction ≠ "" →
      compare_predictions_step t acc m snap preds cd ts =
        upsertRow accuracyKey acc
          ⟨m, snap.symbol, target_date, r.price, cd, snap.price, r.ai_prediction,
            (if r.price < snap.price then "up"
              else if snap.price < r.price then "down" else "neutral"),
            (r.ai_prediction ==
              (if r.price < snap.price then "up"
                else if snap.price < r.price then "down" else "neutral")), ts⟩)
    ∧ (∀ t acc m (snap : SnapshotIn) preds cd ts target_date r,
      selectTargetDate t m snap.symbol cd = some target_date →
      lookupReport t m snap.symbol target_date = some r →
      r.ai_prediction = "unknown" →
      compare_predictions_step t acc m snap preds cd ts = acc) := by
  constructor
  · intro t acc m snap preds cd ts target_date r hsel hlook hunk hne
    simp only [compare_predictions_step, hsel, hlook, if_neg hunk, if_neg hne]
  · intro t acc m snap preds cd ts target_date r hsel hlook hunk
    simp only [compare_predictions_step, hsel, hlook, if_pos hunk]

/-- Witness for C4: the spec's accuracy scenario — prior report at price
100 predicting "up", later snapshot at 105 — writes a row with
actual_direction "up" and hit true. -/
theorem accuracy_comparison_correct_witness :
    compare_predictions_step
      [⟨"us", "AAPL", "2024-01-01", 100, "s", "up", "t"⟩] [] "us"
      ⟨"AAPL", 105⟩ [] "2024-01-08" "t2" =
      upsertRow accuracyKey []
        ⟨"us", "AAPL", "2024-01-01", 100, "2024-01-08", 105, "up",
          (if (100 : ℚ) < 105 then "up"
            else if (105 : ℚ) < 100 then "down" else "neutral"),
          (("up" : String) ==
            (if (100 : ℚ) < 105 then "up"
              else if (105 : ℚ) < 100 then "down" else "neutral")), "t2"⟩ :=
  accuracy_comparison_correct.1
    [⟨"us", "AAPL", "2024-01-01", 100, "s", "up", "t"⟩] [] "us"
    ⟨"AAPL", 105⟩ [] "2024-01-08" "t2" "2024-01-01"
    ⟨"us", "AAPL", "2024-01-01", 100, "s", "up", "t"⟩
    (by decide) (by decide) (by decide) (by decide)

theorem safeCall_error {α : Type} (msg : String) (d : α) :
    safeCall (Except.error msg) d = d := rfl

theorem fetch_stooq_source (items : List StooqItem) (r : PriceRow)
    (hr : r ∈ fetch_stooq_daily items) : r.source = "stooq" := by
  rw [fetch_stooq_daily] at hr
  rcases List.mem_filterMap.mp hr with ⟨it, _, hit⟩
  split at hit
  · exact absurd hit (by simp)
  · cases hit
    rfl

theorem fetch_finmind_source (token : String) (items : List FinmindItem) (r : PriceRow)
    (hr : r ∈ fetch_finmind_daily token items) : r.source = "finmind" := by
  rw [fetch_finmind_daily] at hr
  split at hr
  · exact absurd hr (by simp)
  · rcases List.mem_map.mp hr with ⟨it, _, hit⟩
    cases hit
    rfl

theorem fetch_yfinance_source (data : Option (List YfItem)) (r : PriceRow)
    (hr : r ∈ fetch_yfinance_daily data) : r.source = "yfinance" := by
  rw [fetch_yfinance_daily.eq_def] at hr
  match data with
  | none => exact absurd hr (by simp)
  | some rows =>
    simp only at hr
    split at hr
    · exact absurd hr (by simp)
    · rcases List.mem_map.mp hr with ⟨it, _, hit⟩
      cases hit
      rfl

theorem filter_by_date_mem (rows : List PriceRow) (s e : DateYMD) (r : PriceRow)
    (hr : r ∈ filter_by_date rows s e) : r ∈ rows := by
  rw [filter_by_date] at hr
  have := (List.perm_insertionSort
    (fun a b : PriceRow => strLe a.date b.date = true) _).mem_iff.mp hr
  exact List.mem_filter.mp this |>.1

/-- C2: the orchestrator tries price sources in a fixed per-market order
(US: stooq then yfinance; TW: finmind then yfinance); a raised adapter
error and an empty result both trigger the next source; the first
non-empty step result is selected verbatim; each adapter tags every row it
produces with its own source identifier; and in the claim's instance —
primary step empty, secondary returning N rows — the persisted price table
is exactly the upsert of the secondary's N rows, all tagged "yfinance". -/
theorem fallback_chain_correct :
    (∀ stooqRes yfRes s e,
      safeCall (stooqRes.map fun items => filter_by_date (fetch_stooq_daily items) s e) [] ≠ [] →
      selectPriceRowsUS stooqRes yfRes s e =
        safeCall (stooqRes.map fun items => filter_by_date (fetch_stooq_daily items) s e) [])
    ∧ (∀ stooqRes yfRes s e,
      safeCall (stooqRes.map fun items => filter_by_date (fetch_stooq_daily items) s e) [] = [] →
      selectPriceRowsUS stooqRes yfRes s e = safeCall (yfRes.map fetch_yfinance_daily) [])
    ∧ (∀ finmindRes tok yfRes,
      safeCall (finmindRes.map (fetch_finmind_daily tok)) [] ≠ [] →
      selectPriceRowsTW finmindRes tok yfRes =
        safeCall (finmindRes.map (fetch_finmind_daily tok)) [])
    ∧ (∀ finmindRes tok yfRes,
      safeCall (finmindRes.map (fetch_finmind_daily tok)) [] = [] →
      selectPriceRowsTW finmindRes tok yfRes = safeCall (yfRes.map fetch_yfinance_daily) [])
    ∧ (∀ msg, safeCall (Except.error msg) ([] : List PriceRow) = [])
    ∧ (∀ items r, r ∈ fetch_stooq_daily items → r.source = "stooq")
    ∧ (∀ tok items r, r ∈ fetch_finmind_daily tok items → r.source = "finmind")
    ∧ (∀ d r, r ∈ fetch_yfinance_daily d → r.source = "yfinance")
    ∧ (∀ stooqRes s e T m sym c y l,
      safeCall (stooqRes.map fun items => filter_by_date (fetch_stooq_daily items) s e) [] = [] →
      fetch_yfinance_daily y = l → l ≠ [] →
      selectPriceRowsUS stooqRes (Except.ok y) s e = l ∧
        save_prices T m sym l c = upsertAll priceKey T (l.map (toPriceDBRow m sym c)) ∧
        ∀ r ∈ l, r.source = "yfinance") := by
  refine ⟨?_, ?_, ?_, ?_, fun msg => rfl, fetch_stooq_source, fetch_finmind_source,
    fetch_yfinance_source, ?_⟩
  · intro stooqRes yfRes s e h
    rw [selectPriceRowsUS, if_neg (by simpa [List.isEmpty_iff] using h)]
  · intro stooqRes yfRes s e h
    rw [selectPriceRowsUS, if_pos (by simpa [List.isEmpty_iff] using h)]
  · intro finmindRes tok yfRes h
    rw [selectPriceRowsTW, if_neg (by simpa [List.isEmpty_iff] using h)]
  · intro finmindRes tok yfRes h
    rw [selectPriceRowsTW, if_pos (by simpa [List.isEmpty_iff] using h)]
  · intro stooqRes s e T m sym c y l hempty hfetch hne
    refine ⟨?_, save_prices_eq_upsertAll T m sym l c, ?_⟩
    · rw [selectPriceRowsUS, if_pos (by simpa [List.isEmpty_iff] using hempty)]
      show fetch_yfinance_daily y = l
      exact hfetch
    · intro r hr
      exact fetch_yfinance_source y r (hfetch ▸ hr)

/-- Witness for C2: stooq succeeding with zero rows falls through to a
yfinance result of one row tagged "yfinance", which is what gets
persisted. -/
theorem fallback_chain_correct_witness :
    selectPriceRowsUS (Except.ok []) (Except.ok (some [⟨"2024-01-02", some 1, some 2, some 1, some 2, some 100⟩]))
        ⟨2024, 1, 1⟩ ⟨2024, 12, 31⟩ =
      [⟨"2024-01-02", 1, 2, 1, 2, 100, "yfinance"⟩]
    ∧ save_prices [] "us" "AAPL" [⟨"2024-01-02", 1, 2, 1, 2, 100, "yfinance"⟩] "t" =
        upsertAll priceKey []
          ([(⟨"2024-01-02", 1, 2, 1, 2, 100, "yfinance"⟩ : PriceRow)].map (toPriceDBRow "us" "AAPL" "t"))
    ∧ ∀ r ∈ [(⟨"2024-01-02", 1, 2, 1, 2, 100, "yfinance"⟩ : PriceRow)], r.source = "yfinance" :=
  fallback_chain_correct.2.2.2.2.2.2.2.2 (Except.ok []) ⟨2024, 1, 1⟩ ⟨2024, 12, 31⟩
    [] "us" "AAPL" "t" (some [⟨"2024-01-02", some 1, some 2, some 1, some 2, some 100⟩])
    [⟨"2024-01-02", 1, 2, 1, 2, 100, "yfinance"⟩] (by decide) (by decide) (by decide)

/-- Counterexample to C5 as stated: (i) `filter_by_date` keeps duplicate
dates, so the series handed onward is not strictly ascending even on the
filtered (stooq) path; (ii) the TW finmind path hands rows through with no
window filter at all — a fetched row dated 2023-05-05 survives a
[2024-01-01, 2024-12-31] request and is what gets persisted. -/
theorem price_window_counterexample :
    filter_by_date [samplePriceRow, samplePriceRow] ⟨2024, 1, 1⟩ ⟨2024, 12, 31⟩ =
      [samplePriceRow, samplePriceRow]
    ∧ chainStrLt ((filter_by_date [samplePriceRow, samplePriceRow]
        ⟨2024, 1, 1⟩ ⟨2024, 12, 31⟩).map PriceRow.date) = false
    ∧ selectPriceRowsTW
        (Except.ok [⟨some "2023-05-05", some 1, some 2, some 1, some 2, some 100, none⟩])
        "token" (Except.error "unused") =
        [⟨"2023-05-05", 1, 2, 1, 2, 100, "finmind"⟩]
    ∧ parseDate "2023-05-05" = some ⟨2023, 5, 5⟩
    ∧ ¬ dateKey ⟨2024, 1, 1⟩ ≤ dateKey ⟨2023, 5, 5⟩ := by
  refine ⟨by decide, by decide, by decide, by decide, by decide⟩

/-- C5 (amended): only the stooq chain step windows and sorts its rows —
every row surviving `filter_by_date` has a parsed date inside the inclusive
window and the output is sorted ascending by date, non-strictly (duplicate
dates may survive); the finmind and yfinance steps hand the adapter's rows
onward exactly as returned, with no window or sort applied. -/
theorem price_window_amended :
    (∀ rows s e r, r ∈ filter_by_date rows s e →
      ∃ d, parseDate r.date = some d ∧ dateKey s ≤ dateKey d ∧ dateKey d ≤ dateKey e)
    ∧ (∀ rows s e, (filter_by_date rows s e).Sorted
        fun a b : PriceRow => strLe a.date b.date = true)
    ∧ (∀ stooqRes yfRes s e l,
        safeCall (stooqRes.map fun items => filter_by_date (fetch_stooq_daily items) s e) [] = l →
        l ≠ [] → selectPriceRowsUS stooqRes yfRes s e = l)
    ∧ (∀ tok yfRes items, fetch_finmind_daily tok items ≠ [] →
        selectPriceRowsTW (Except.ok items) tok yfRes = fetch_finmind_daily tok items) := by
  refine ⟨?_, ?_, ?_, ?_⟩
  · intro rows s e r hr
    rw [filter_by_date] at hr
    have hmem := (List.perm_insertionSort
      (fun a b : PriceRow => strLe a.date b.date = true) _).mem_iff.mp hr
    have hpred := (List.mem_filter.mp hmem).2
    cases hp : parseDate r.date with
    | none => rw [hp] at hpred; simp at hpred
    | some d =>
      rw [hp] at hpred
      simp only [decide_eq_true_eq] at hpred
      exact ⟨d, rfl, hpred.1, hpred.2⟩
  · intro rows s e
    exact List.sorted_insertionSort _ _
  · intro stooqRes yfRes s e l hl hne
    rw [selectPriceRowsUS]
    rw [if_neg (by rw [hl]; simpa [List.isEmpty_iff] using hne)]
    exact hl
  · intro tok yfRes items hne
    rw [selectPriceRowsTW]
    rw [if_neg (by simpa [List.isEmpty_iff, safeCall] using hne)]
    rfl

/-- Witness for C5's amended statement: a kept row's date parses inside the
requested window. -/
theorem price_window_amended_witness :
    ∃ d, parseDate samplePriceRow.date = some d ∧
      dateKey ⟨2024, 1, 1⟩ ≤ dateKey d ∧ dateKey d ≤ dateKey ⟨2024, 12, 31⟩ :=
  price_window_amended.1 [samplePriceRow] ⟨2024, 1, 1⟩ ⟨2024, 12, 31⟩ samplePriceRow
    (by decide)

theorem ewmMaskedGo_length (α : ℚ) (minp : ℕ) :
    ∀ (x : List (Option ℚ)) (last : Option ℚ) (count : ℕ),
      (ewmMaskedGo α minp last count x).length = x.length := by
  intro x
  induction x with
  | nil => intro last count; rfl
  | cons xo xs ih =>
    intro last count
    cases xo with
    | none => simpa [ewmMaskedGo] using ih last count
    | some v => simpa [ewmMaskedGo] using ih _ _

theorem ewmMasked_length (α : ℚ) (minp : ℕ) (x : List (Option ℚ)) :
    (ewmMasked α minp x).length = x.length :=
  ewmMaskedGo_length α minp x none 0

theorem smaList_length (n : ℕ) (c : List ℚ) : (smaList n c).length = c.length := by
  simp [smaList]

theorem bbStdList_length (n : ℕ) (c : List ℚ) : (bbStdList n c).length = c.length := by
  simp [bbStdList]

theorem emaList_length (n : ℕ) (c : List ℚ) : (emaList n c).length = c.length := by
  rw [emaList, ewmMasked_length, List.length_map]

theorem diffSeries_length (c : List ℚ) : (diffSeries c).length = c.length := by
  cases c with
  | nil => rfl
  | cons a rest => simp [diffSeries]

theorem diffSeries_cons (a : ℚ) (rest : List ℚ) :
    diffSeries (a :: rest) =
      none :: (List.zipWith (fun x y => x - y) rest (a :: rest)).map some := rfl

theorem zipOpt_get?_none_right (f : ℚ → ℚ → Option ℚ) (a b : List (Option ℚ)) (i : ℕ)
    (x : Option ℚ) (ha : a.get? i = some x) (hb : b.get? i = some none) :
    (zipOpt f a b).get? i = some none := by
  rw [List.get?_eq_getElem?] at *
  rw [zipOpt]
  exact List.getElem?_zipWith_eq_some.mpr ⟨x, none, ha, hb, by cases x <;> rfl⟩

theorem zipOpt_get?_none_left (f : ℚ → ℚ → Option ℚ) (a b : List (Option ℚ)) (i : ℕ)
    (y : Option ℚ) (ha : a.get? i = some none) (hb : b.get? i = some y) :
    (zipOpt f a b).get? i = some none := by
  rw [List.get?_eq_getElem?] at *
  rw [zipOpt]
  exact List.getElem?_zipWith_eq_some.mpr ⟨none, y, ha, hb, rfl⟩

theorem zipOpt_get?_some (f : ℚ → ℚ → Option ℚ) (a b : List (Option ℚ)) (i : ℕ)
    (u v : ℚ) (ha : a.get? i = some (some u)) (hb : b.get? i = some (some v)) :
    (zipOpt f a b).get? i = some (f u v) := by
  rw [List.get?_eq_getElem?] at *
  rw [zipOpt]
  exact List.getElem?_zipWith_eq_some.mpr ⟨some u, some v, ha, hb, rfl⟩

theorem get?_exists_of_lt {β : Type} (l : List β) (i : ℕ) (h : i < l.length) :
    ∃ x, l.get? i = some x := by
  rw [List.get?_eq_getElem?]
  exact ⟨l[i], List.getElem?_eq_getElem h⟩

/-- Any output cell of the ewm walk seen before `min_periods` non-NaN
observations is NaN. -/
theorem ewmMaskedGo_cons_none (α : ℚ) (minp : ℕ) (last : Option ℚ) (count : ℕ)
    (xs : List (Option ℚ)) :
    ewmMaskedGo α minp last count (none :: xs) =
      (if minp ≤ count then last else none) :: ewmMaskedGo α minp last count xs := rfl

theorem ewmMaskedGo_cons_some (α : ℚ) (minp : ℕ) (last : Option ℚ) (count : ℕ)
    (v : ℚ) (xs : List (Option ℚ)) :
    ewmMaskedGo α minp last count (some v :: xs) =
      (if minp ≤ count + 1 then
        some (match last with
          | none => v
          | some y0 => (1 - α) * y0 + α * v) else none) ::
        ewmMaskedGo α minp
          (some (match last with
            | none => v
            | some y0 => (1 - α) * y0 + α * v)) (count + 1) xs := rfl

/-- Any output cell of the ewm walk seen before `min_periods` non-NaN
observations is NaN. -/
theorem ewmMaskedGo_get?_none (α : ℚ) (minp : ℕ) :
    ∀ (x : List (Option ℚ)) (last : Option ℚ) (count i : ℕ), i < x.length →
      count + countSome (x.take (i + 1)) < minp →
      (ewmMaskedGo α minp last count x).get? i = some none := by
  intro x
  induction x with
  | nil => intro last count i h; simp at h
  | cons xo xs ih =>
    intro last count i hlen hcnt
    cases xo with
    | none =>
      rw [ewmMaskedGo_cons_none]
      cases i with
      | zero =>
        have : ¬ minp ≤ count := by
          simp only [List.take_succ_cons, countSome, List.countP_cons] at hcnt
          simp only [Option.isSome_none, Bool.false_eq_true, if_false, cond_false] at hcnt
          omega
        simp [this]
      | succ j =>
        have hrec := ih last count j (by simpa using hlen) (by
          simp only [List.take_succ_cons, countSome, List.countP_cons] at hcnt ⊢
          simpa using hcnt)
        simpa using hrec
    | some v =>
      rw [ewmMaskedGo_cons_some]
      cases i with
      | zero =>
        have : ¬ minp ≤ count + 1 := by
          simp [countSome, List.countP_cons] at hcnt
          omega
        rw [List.get?_cons_zero, if_neg this]
      | succ j =>
        have hcnt' : (count + 1) + countSome (xs.take (j + 1)) < minp := by
          simp [countSome, List.countP_cons] at hcnt ⊢
          omega
        have hrec := ih (some (match last with
            | none => v
            | some y0 => (1 - α) * y0 + α * v)) (count + 1) j (by simpa using hlen) hcnt'
        simpa using hrec

theorem countSome_take_map_some (c : List ℚ) (k : ℕ) :
    countSome ((c.map some).take k) = min k c.length := by
  rw [countSome, ← List.map_take]
  rw [List.countP_eq_length.mpr (by
    intro a ha
    rcases List.mem_map.mp ha with ⟨v, _, rfl⟩
    simp)]
  simp

theorem countSome_take_le_of_prefix_none (l : List (Option ℚ)) (m i : ℕ)
    (h : ∀ j, j < m → j < l.length → l.get? j = some none) :
    countSome (l.take i) ≤ i - min m i := by
  have hsplit : l.take i = (l.take i).take (min m i) ++ (l.take i).drop (min m i) :=
    (List.take_append_drop (min m i) (l.take i)).symm
  rw [countSome, hsplit, List.countP_append]
  have htt : (l.take i).take (min m i) = l.take (min m i) := by
    rw [List.take_take]
    congr 1
    omega
  have h1 : ((l.take i).take (min m i)).countP (fun o => o.isSome) = 0 := by
    rw [List.countP_eq_zero]
    intro a ha
    rw [htt] at ha
    rcases List.mem_iff_getElem.mp ha with ⟨j, hj, hget⟩
    have hjlen : j < min (min m i) l.length := by
      rwa [List.length_take] at hj
    have hsome : l[j]? = some a := by
      rw [← List.getElem?_take_of_lt (show j < min m i by omega),
        List.getElem?_eq_getElem hj, hget]
    have hnone := h j (by omega) (by omega)
    rw [List.get?_eq_getElem?, hsome] at hnone
    cases hnone
    simp
  rw [h1, Nat.zero_add]
  calc ((l.take i).drop (min m i)).countP (fun o => o.isSome)
      ≤ ((l.take i).drop (min m i)).length := List.countP_le_length _
    _ = (l.take i).length - min m i := by rw [List.length_drop]
    _ ≤ i - min m i := by
        rw [List.length_take]
        omega

theorem countSome_map_optionMap (f : ℚ → ℚ) (l : List (Option ℚ)) :
    countSome (l.map (Option.map f)) = countSome l := by
  rw [countSome, countSome, List.countP_map]
  apply List.countP_congr
  intro o _
  cases o <;> rfl

theorem countSome_take_diffSeries (c : List ℚ) (k : ℕ) :
    countSome ((diffSeries c).take (k + 1)) ≤ k := by
  cases c with
  | nil => simp [diffSeries, countSome]
  | cons a rest =>
    rw [diffSeries_cons, List.take_succ_cons]
    simp only [countSome, List.countP_cons]
    have := countSome_take_map_some (List.zipWith (fun x y => x - y) rest (a :: rest)) k
    rw [countSome] at this
    simp only [Option.isSome_none, Bool.false_eq_true, if_false, cond_false]
    omega

theorem emaList_get?_none (n : ℕ) (c : List ℚ) (i : ℕ) (hi : i < c.length)
    (hn : i + 1 < n) : (emaList n c).get? i = some none := by
  rw [emaList, ewmMasked]
  apply ewmMaskedGo_get?_none
  · simpa using hi
  · rw [Nat.zero_add, countSome_take_map_some]
    omega

theorem macdLineList_length (c : List ℚ) : (macdLineList c).length = c.length := by
  rw [macdLineList, zipOpt, List.length_zipWith, emaList_length, emaList_length]
  simp

theorem macdLineList_get?_none (c : List ℚ) (i : ℕ) (hi : i < c.length)
    (hn : i + 1 < 26) : (macdLineList c).get? i = some none := by
  rw [macdLineList]
  obtain ⟨x, hx⟩ := get?_exists_of_lt (emaList 12 c) i (by rw [emaList_length]; exact hi)
  exact zipOpt_get?_none_right _ _ _ i x hx (emaList_get?_none 26 c i hi hn)

theorem macdSignalList_length (c : List ℚ) : (macdSignalList c).length = c.length := by
  rw [macdSignalList, ewmMasked, ewmMaskedGo_length, macdLineList_length]

theorem macdSignalList_get?_none (c : List ℚ) (i : ℕ) (hi : i < c.length)
    (hn : i + 1 < 34) : (macdSignalList c).get? i = some none := by
  rw [macdSignalList, ewmMasked]
  apply ewmMaskedGo_get?_none
  · rw [macdLineList_length]; exact hi
  · rw [Nat.zero_add]
    have hb := countSome_take_le_of_prefix_none (macdLineList c) 25 (i + 1)
      (fun j hj1 hj2 => macdLineList_get?_none c j (by rwa [macdLineList_length] at hj2)
        (by omega))
    have : i + 1 - min 25 (i + 1) ≤ 8 := by omega
    omega

theorem macdHistList_get?_none (c : List ℚ) (i : ℕ) (hi : i < c.length)
    (hn : i + 1 < 34) : (macdHistList c).get? i = some none := by
  rw [macdHistList]
  obtain ⟨x, hx⟩ := get?_exists_of_lt (macdLineList c) i (by rw [macdLineList_length]; exact hi)
  exact zipOpt_get?_none_right _ _ _ i x hx (macdSignalList_get?_none c i hi hn)

theorem rsiList_get?_none (c : List ℚ) (i : ℕ) (hi : i < c.length) (hn : i < 14) :
    (rsiList 14 c).get? i = some none := by
  simp only [rsiList]
  have hga : (ewmMasked (1 / (14 : ℚ)) 14
      ((diffSeries c).map (Option.map fun d => max d 0))).get? i = some none := by
    rw [ewmMasked]
    apply ewmMaskedGo_get?_none
    · rw [List.length_map, diffSeries_length]; exact hi
    · rw [Nat.zero_add, ← List.map_take, countSome_map_optionMap]
      have := countSome_take_diffSeries c i
      omega
  obtain ⟨y, hy⟩ := get?_exists_of_lt
    (ewmMasked (1 / (14 : ℚ)) 14 ((diffSeries c).map (Option.map fun d => max (-d) 0))) i
    (by rw [ewmMasked_length, List.length_map, diffSeries_length]; exact hi)
  exact zipOpt_get?_none_left _ _ _ i y hga hy

theorem smaList_get? (n : ℕ) (c : List ℚ) (i : ℕ) (hi : i < c.length) :
    (smaList n c).get? i =
      some (if n ≤ i + 1 then some ((windowSlice n c i).sum / (n : ℚ)) else none) := by
  rw [smaList, List.get?_map, List.get?_range hi]
  rfl

theorem bbStdList_get? (n : ℕ) (c : List ℚ) (i : ℕ) (hi : i < c.length) :
    (bbStdList n c).get? i =
      some (if n ≤ i + 1 then some (sampleStd (windowSlice n c i)) else none) := by
  rw [bbStdList, List.get?_map, List.get?_range hi]
  rfl

/-- C7: the Indicator Engine returns an empty result for an empty input and
otherwise exactly one indicator row per input date, in input order; every
indicator whose required lookback window is not yet satisfied at an index
is the explicit absent value `none` (never a zero). -/
theorem indicator_engine_shape :
    compute_indicators [] = []
    ∧ (∀ rows, (compute_indicators rows).length = rows.length)
    ∧ (∀ rows i r, (compute_indicators rows).get? i = some r →
        ((rows.get? i).map PriceRow.date = some r.date)
        ∧ (i + 1 < 20 → r.sma20 = none)
        ∧ (i + 1 < 50 → r.sma50 = none)
        ∧ (i + 1 < 12 → r.ema12 = none)
        ∧ (i + 1 < 26 → r.ema26 = none)
        ∧ (i < 14 → r.rsi14 = none)
        ∧ (i + 1 < 26 → r.macd = none)
        ∧ (i + 1 < 34 → r.macd_signal = none)
        ∧ (i + 1 < 34 → r.macd_hist = none)
        ∧ (i + 1 < 20 → r.bb_mid = none)
        ∧ (i + 1 < 20 → r.bb_upper = none)
        ∧ (i + 1 < 20 → r.bb_lower = none)) := by
  refine ⟨rfl, ?_, ?_⟩
  · intro rows
    by_cases h : rows.isEmpty
    · rw [compute_indicators, if_pos h, List.isEmpty_iff.mp h]
      rfl
    · simp only [compute_indicators, if_neg h]
      rw [List.length_map, List.length_range]
  · intro rows i r hr
    have hne : rows.isEmpty = false := by
      cases h : rows.isEmpty
      · rfl
      · rw [compute_indicators, if_pos h] at hr
        simp at hr
    simp only [compute_indicators, hne, Bool.false_eq_true, if_false] at hr
    have hi : i < rows.length := by
      rcases List.get?_eq_some.mp hr with ⟨hlt, _⟩
      simpa using hlt
    rw [List.get?_map, List.get?_range hi] at hr
    injection hr with hr
    subst hr
    beta_reduce
    obtain ⟨row, hrow⟩ := get?_exists_of_lt rows i hi
    have hlen : i < (rows.map PriceRow.close).length := by simpa using hi
    refine ⟨?_, ?_, ?_, ?_, ?_, ?_, ?_, ?_, ?_, ?_, ?_, ?_⟩
    · rw [hrow]
      rfl
    · intro h
      show ((smaList 20 (rows.map PriceRow.close)).get? i).getD none = none
      rw [smaList_get? 20 _ i hlen, if_neg (by omega)]
      rfl
    · intro h
      show ((smaList 50 (rows.map PriceRow.close)).get? i).getD none = none
      rw [smaList_get? 50 _ i hlen, if_neg (by omega)]
      rfl
    · intro h
      show ((emaList 12 (rows.map PriceRow.close)).get? i).getD none = none
      rw [emaList_get?_none 12 _ i hlen (by omega)]
      rfl
    · intro h
      show ((emaList 26 (rows.map PriceRow.close)).get? i).getD none = none
      rw [emaList_get?_none 26 _ i hlen (by omega)]
      rfl
    · intro h
      show ((rsiList 14 (rows.map PriceRow.close)).get? i).getD none = none
      rw [rsiList_get?_none _ i hlen (by omega)]
      rfl
    · intro h
      show ((macdLineList (rows.map PriceRow.close)).get? i).getD none = none
      rw [macdLineList_get?_none _ i hlen (by omega)]
      rfl
    · intro h
      show ((macdSignalList (rows.map PriceRow.close)).get? i).getD none = none
      rw [macdSignalList_get?_none _ i hlen (by omega)]
      rfl
    · intro h
      show ((macdHistList (rows.map PriceRow.close)).get? i).getD none = none
      rw [macdHistList_get?_none _ i hlen (by omega)]
      rfl
    · intro h
      show ((smaList 20 (rows.map PriceRow.close)).get? i).getD none = none
      rw [smaList_get? 20 _ i hlen, if_neg (by omega)]
      rfl
    · intro h
      show ((zipOpt (fun m d => some (m + 2 * d)) (smaList 20 (rows.map PriceRow.close))
        (bbStdList 20 (rows.map PriceRow.close))).get? i).getD none = none
      obtain ⟨y, hy⟩ := get?_exists_of_lt (bbStdList 20 (rows.map PriceRow.close)) i
        (by rw [bbStdList_length]; exact hlen)
      rw [zipOpt_get?_none_left _ _ _ i y (by
        rw [smaList_get? 20 _ i hlen, if_neg (by omega)]) hy]
      rfl
    · intro h
      show ((zipOpt (fun m d => some (m - 2 * d)) (smaList 20 (rows.map PriceRow.close))
        (bbStdList 20 (rows.map PriceRow.close))).get? i).getD none = none
      obtain ⟨y, hy⟩ := get?_exists_of_lt (bbStdList 20 (rows.map PriceRow.close)) i
        (by rw [bbStdList_length]; exact hlen)
      rw [zipOpt_get?_none_left _ _ _ i y (by
        rw [smaList_get? 20 _ i hlen, if_neg (by omega)]) hy]
      rfl

/-- Witness for C7: the single row of a one-row series keeps its date and
has every indicator absent. -/
theorem indicator_engine_shape_witness :
    (([samplePriceRow].get? 0).map PriceRow.date = some c7Row.date)
    ∧ (0 + 1 < 20 → c7Row.sma20 = none)
    ∧ (0 + 1 < 50 → c7Row.sma50 = none)
    ∧ (0 + 1 < 12 → c7Row.ema12 = none)
    ∧ (0 + 1 < 26 → c7Row.ema26 = none)
    ∧ (0 < 14 → c7Row.rsi14 = none)
    ∧ (0 + 1 < 26 → c7Row.macd = none)
    ∧ (0 + 1 < 34 → c7Row.macd_signal = none)
    ∧ (0 + 1 < 34 → c7Row.macd_hist = none)
    ∧ (0 + 1 < 20 → c7Row.bb_mid = none)
    ∧ (0 + 1 < 20 → c7Row.bb_upper = none)
    ∧ (0 + 1 < 20 → c7Row.bb_lower = none) :=
  indicator_engine_shape.2.2 [samplePriceRow] 0 c7Row (by decide)

theorem ewmMaskedGo_zeros (α : ℚ) (minp : ℕ) :
    ∀ (zs : List (Option ℚ)), (∀ o ∈ zs, o = some (0 : ℚ)) →
      ∀ (count i : ℕ), i < zs.length →
      (ewmMaskedGo α minp (some 0) count zs).get? i =
        some (if minp ≤ count + i + 1 then some (0 : ℚ) else none) := by
  intro zs
  induction zs with
  | nil =>
    intro _ count i h
    simp at h
  | cons o os ih =>
    intro hz count i hlen
    have ho : o = some 0 := hz o (by simp)
    subst ho
    rw [ewmMaskedGo_cons_some]
    have hval : ((1 - α) * 0 + α * 0 : ℚ) = 0 := by ring
    simp only [hval]
    cases i with
    | zero =>
      rw [List.get?_cons_zero]
    | succ j =>
      rw [List.get?_cons_succ]
      have hrec := ih (fun x hx => hz x (List.mem_cons_of_mem _ hx)) (count + 1) j
        (by simpa using hlen)
      rw [(by omega : count + 1 + j + 1 = count + (j + 1) + 1)] at hrec
      exact hrec

theorem ewmMaskedGo_pos (α : ℚ) (hα0 : 0 < α) (hα1 : α < 1) (minp : ℕ) :
    ∀ (xs : List (Option ℚ)), (∀ o ∈ xs, ∃ v, o = some v ∧ 0 < v) →
      ∀ (y : ℚ), 0 < y → ∀ (count i : ℕ), i < xs.length →
      ∃ w, 0 < w ∧ (ewmMaskedGo α minp (some y) count xs).get? i =
        some (if minp ≤ count + i + 1 then some w else none) := by
  intro xs
  induction xs with
  | nil =>
    intro _ y _ count i h
    simp at h
  | cons o os ih =>
    intro hx y hy count i hlen
    obtain ⟨v, rfl, hv⟩ := hx o (by simp)
    rw [ewmMaskedGo_cons_some]
    have hy2 : 0 < (1 - α) * y + α * v := by
      have h1 : 0 ≤ (1 - α) * y := mul_nonneg (by linarith) (le_of_lt hy)
      have h2 : 0 < α * v := mul_pos hα0 hv
      linarith
    cases i with
    | zero =>
      refine ⟨(1 - α) * y + α * v, hy2, ?_⟩
      rw [List.get?_cons_zero]
    | succ j =>
      obtain ⟨w, hw, heq⟩ := ih (fun x hx' => hx x (List.mem_cons_of_mem _ hx'))
        ((1 - α) * y + α * v) hy2 (count + 1) j (by simpa using hlen)
      refine ⟨w, hw, ?_⟩
      rw [(by omega : count + 1 + j + 1 = count + (j + 1) + 1)] at heq
      rw [List.get?_cons_succ, heq]

theorem chainLtQ_diffs_pos : ∀ c : List ℚ, chainLtQ c = true →
    ∀ d ∈ List.zipWith (fun a b => a - b) c.tail c, 0 < d := by
  intro c
  induction c with
  | nil =>
    intro _ d hd
    simp at hd
  | cons a rest ih =>
    intro hc d hd
    cases rest with
    | nil => simp at hd
    | cons b rest2 =>
      have hc' : (decide (a < b) && chainLtQ (b :: rest2)) = true := hc
      simp only [Bool.and_eq_true, decide_eq_true_eq] at hc'
      simp only [List.tail_cons, List.zipWith_cons_cons] at hd
      rcases List.mem_cons.mp hd with rfl | hd'
      · linarith [hc'.1]
      · exact ih hc'.2 d (by simpa using hd')

theorem smaList_get?_final (n : ℕ) (c : List ℚ) (hn : n ≤ c.length) (h1 : 1 ≤ c.length) :
    (smaList n c).get? (c.length - 1) = some (some (trailingMean n c)) := by
  rw [smaList_get? n c (c.length - 1) (by omega), if_pos (by omega)]
  have hidx : c.length - 1 + 1 = c.length := by omega
  rw [windowSlice, hidx, List.take_length]
  rfl

theorem ewmMaskedGo_cons_some_none (α : ℚ) (minp count : ℕ) (v : ℚ)
    (xs : List (Option ℚ)) :
    ewmMaskedGo α minp none count (some v :: xs) =
      (if minp ≤ count + 1 then some v else none) ::
        ewmMaskedGo α minp (some v) (count + 1) xs := rfl

theorem rsiList_get?_final (c : List ℚ) (h14 : 14 ≤ c.length - 1)
    (hpos : ∀ d ∈ List.zipWith (fun a b => a - b) c.tail c, 0 < d) :
    (rsiList 14 c).get? (c.length - 1) = some (some 100) := by
  cases c with
  | nil => simp at h14
  | cons a rest =>
    cases rest with
    | nil => simp at h14
    | cons b rest2 =>
      have hr2 : 13 ≤ rest2.length := by
        simp only [List.length_cons] at h14
        omega
      have hpos' : ∀ d ∈ (b - a) :: List.zipWith (fun x y => x - y) rest2 (b :: rest2), 0 < d := by
        intro d hd
        exact hpos d (by simpa [List.zipWith_cons_cons] using hd)
      have hd0 : 0 < b - a := hpos' (b - a) (by simp)
      have hds2 : ∀ d ∈ List.zipWith (fun x y => x - y) rest2 (b :: rest2), 0 < d :=
        fun d hd => hpos' d (List.mem_cons_of_mem _ hd)
      have hlds2 : (List.zipWith (fun x y => x - y) rest2 (b :: rest2)).length = rest2.length := by
        rw [List.length_zipWith]
        simp
      have hgain : (diffSeries (a :: b :: rest2)).map (Option.map fun d => max d 0) =
          none :: some (max (b - a) 0) ::
            (List.zipWith (fun x y => x - y) rest2 (b :: rest2)).map
              (fun d => some (max d 0)) := by
        rw [diffSeries_cons]
        simp [List.zipWith_cons_cons, List.map_map, Function.comp]
      have hloss : (diffSeries (a :: b :: rest2)).map (Option.map fun d => max (-d) 0) =
          none :: some (max (-(b - a)) 0) ::
            (List.zipWith (fun x y => x - y) rest2 (b :: rest2)).map
              (fun d => some (max (-d) 0)) := by
        rw [diffSeries_cons]
        simp [List.zipWith_cons_cons, List.map_map, Function.comp]
      obtain ⟨w, hw, heqg⟩ := ewmMaskedGo_pos (1 / ((14 : ℕ) : ℚ)) (by norm_num)
        (by norm_num) 14
        ((List.zipWith (fun x y => x - y) rest2 (b :: rest2)).map (fun d => some (max d 0)))
        (by
          intro o ho
          rcases List.mem_map.mp ho with ⟨d, hd, rfl⟩
          exact ⟨max d 0, rfl, lt_of_lt_of_le (hds2 d hd) (le_max_left _ _)⟩)
        (max (b - a) 0) (lt_of_lt_of_le hd0 (le_max_left _ _)) 1 (rest2.length - 1)
        (by rw [List.length_map, hlds2]; omega)
      rw [if_pos (by omega : 14 ≤ 1 + (rest2.length - 1) + 1)] at heqg
      have heql := ewmMaskedGo_zeros (1 / ((14 : ℕ) : ℚ)) 14
        ((List.zipWith (fun x y => x - y) rest2 (b :: rest2)).map (fun d => some (max (-d) 0)))
        (by
          intro o ho
          rcases List.mem_map.mp ho with ⟨d, hd, rfl⟩
          have : max (-d) 0 = 0 := max_eq_right (by linarith [hds2 d hd])
          rw [this])
        1 (rest2.length - 1) (by rw [List.length_map, hlds2]; omega)
      rw [if_pos (by omega : 14 ≤ 1 + (rest2.length - 1) + 1)] at heql
      have hga : (ewmMasked (1 / ((14 : ℕ) : ℚ)) 14
          ((diffSeries (a :: b :: rest2)).map (Option.map fun d => max d 0))).get?
            (rest2.length + 1) = some (some w) := by
        rw [hgain, ewmMasked, ewmMaskedGo_cons_none, List.get?_cons_succ,
          ewmMaskedGo_cons_some_none,
          (by omega : rest2.length = (rest2.length - 1) + 1), List.get?_cons_succ]
        exact heqg
      have hla : (ewmMasked (1 / ((14 : ℕ) : ℚ)) 14
          ((diffSeries (a :: b :: rest2)).map (Option.map fun d => max (-d) 0))).get?
            (rest2.length + 1) = some (some 0) := by
        rw [hloss, ewmMasked, ewmMaskedGo_cons_none, List.get?_cons_succ,
          ewmMaskedGo_cons_some_none,
          (max_eq_right (by linarith) : max (-(b - a)) 0 = 0),
          (by omega : rest2.length = (rest2.length - 1) + 1), List.get?_cons_succ]
        exact heql
      have hfinal := zipOpt_get?_some rsiArith _ _ (rest2.length + 1) w 0 hga hla
      have hidx : (a :: b :: rest2 : List ℚ).length - 1 = rest2.length + 1 := by
        simp only [List.length_cons]
        omega
      simp only [rsiList]
      rw [hidx, hfinal, rsiArith, if_pos rfl, if_neg (ne_of_gt hw)]

/-- C8: for a strictly-increasing close series of length at least 200, the
final row's SMA20 and SMA50 equal the arithmetic mean of the trailing 20 and
50 closes exactly (hence within any tolerance, in particular 1e-9 — doubles
are idealised as rationals), and RSI14 equals exactly 100 because all
trailing deltas are positive, so the smoothed loss average is 0 and the
IEEE division by zero drives `100 - 100/(1 + rs)` to 100. -/
theorem indicator_values_final (rows : List PriceRow)
    (h200 : 200 ≤ rows.length)
    (hmono : chainLtQ (rows.map PriceRow.close) = true) :
    ∃ r, (compute_indicators rows).get? (rows.length - 1) = some r ∧
      r.sma20 = some (trailingMean 20 (rows.map PriceRow.close)) ∧
      r.sma50 = some (trailingMean 50 (rows.map PriceRow.close)) ∧
      r.rsi14 = some 100 := by
  have hne : rows.isEmpty = false := by
    cases h : rows.isEmpty
    · rfl
    · have := List.isEmpty_iff.mp h
      subst this
      simp at h200
  have hi : rows.length - 1 < rows.length := by omega
  have hclen : (rows.map PriceRow.close).length = rows.length := by simp
  simp only [compute_indicators, hne, Bool.false_eq_true, if_false]
  rw [List.get?_map, List.get?_range hi]
  refine ⟨_, rfl, ?_, ?_, ?_⟩
  · show ((smaList 20 (rows.map PriceRow.close)).get? (rows.length - 1)).getD none = _
    rw [← (by rw [hclen] : (rows.map PriceRow.close).length - 1 = rows.length - 1),
      smaList_get?_final 20 _ (by omega) (by omega)]
    rfl
  · show ((smaList 50 (rows.map PriceRow.close)).get? (rows.length - 1)).getD none = _
    rw [← (by rw [hclen] : (rows.map PriceRow.close).length - 1 = rows.length - 1),
      smaList_get?_final 50 _ (by omega) (by omega)]
    rfl
  · show ((rsiList 14 (rows.map PriceRow.close)).get? (rows.length - 1)).getD none = _
    rw [← (by rw [hclen] : (rows.map PriceRow.close).length - 1 = rows.length - 1),
      rsiList_get?_final _ (by omega) (chainLtQ_diffs_pos _ hmono)]
    rfl

set_option maxRecDepth 10000 in
/-- Witness for C8: a synthetic strictly-increasing 200-row series. -/
theorem indicator_values_final_witness :
    ∃ r, (compute_indicators (syntheticRows 200)).get? ((syntheticRows 200).length - 1) =
        some r ∧
      r.sma20 = some (trailingMean 20 ((syntheticRows 200).map PriceRow.close)) ∧
      r.sma50 = some (trailingMean 50 ((syntheticRows 200).map PriceRow.close)) ∧
      r.rsi14 = some 100 :=
  indicator_values_final (syntheticRows 200) (by decide) (by decide)

end StockCheck
